import Mathlib

/-!
Verification of a dual-keyed associative container (bimap) built on a pair of
intrusive unbalanced binary search trees.

The development shallowly embeds the two source files:

* `intrusive_set.h` — an intrusive BST keyed through an external getter and an
  external comparison object.  The pointer structure (parent / left / right,
  hanging off a sentinel whose left child is the root) is modelled by an
  inductive binary tree; a node of the tree is addressed by the path of
  left/right turns from the root (`Path`), and the sentinel / `end()` position
  is `Option.none`.  The recursive tree algorithms (`add_to_tree`,
  `bound_impl`, the two-child deletion splice) are translated structurally.
  The iterator `operator++`, which in the source walks parent pointers, is
  translated on paths: descend to the leftmost node of the right subtree if
  one exists, otherwise ascend while the node is a right child and stop at the
  first ancestor reached from the left (`none` when the walk runs off the
  root, i.e. reaches the sentinel).

* `bimap.h` — the container owning `storage_node` records (a left key and a
  right key).  Its two trees are modelled as two `Tree (storage_node L R)`
  values keyed by the two projections.  A `template_iterator` holds a pointer
  to a record; it is modelled by an `Option (storage_node L R)` (`none` is the
  end iterator), and `flip` is the pointer reinterpretation that moves between
  the two embeddings of the same record, so it simply re-tags the carried
  record and consults neither tree.  Where an operation of the source walks
  from a record's node (erase, the `it++` inside `erase_left`), the model
  first recovers the record's path with `path_of` — the functional stand-in
  for "the iterator already holds the node's address" — and then runs the
  translated pointer algorithm at that path.

Comparison objects are arbitrary `K → K → Bool` functions, as in the
templated source.  Theorems that need the standard library's comparator
contract assume `IsSTO cmp` (asymmetry, transitivity, and totality: keys that
compare equivalent are equal), the strict-total-order case of the strict weak
order the source requires.
-/

namespace Intrusive

/-- Binary tree of records; models the pointer structure reachable from
`sentinel->left` in `intrusive_set.h` (parent pointers are implicit in the
structure). -/
inductive Tree (T : Type) where
  | nil : Tree T
  | node : Tree T → T → Tree T → Tree T
deriving DecidableEq

/-- Path of turns from the root addressing a node: `false` = left child,
`true` = right child. -/
abbrev Path := List Bool

variable {T K : Type}

/-- In-order traversal of the tree. -/
def inorder : Tree T → List T
  | .nil => []
  | .node l v r => inorder l ++ v :: inorder r

/-- Boolean: the predicate holds on every record of the tree. -/
def treeAll (p : T → Bool) : Tree T → Bool
  | .nil => true
  | .node l v r => treeAll p l && p v && treeAll p r

/-- Boolean binary-search-tree invariant with respect to the key getter and
the comparison: at every node, all keys on the left are strictly less than
the node's key and the node's key is strictly less than all keys on the
right. -/
def isBST (getk : T → K) (cmp : K → K → Bool) : Tree T → Bool
  | .nil => true
  | .node l v r =>
      isBST getk cmp l && isBST getk cmp r &&
      treeAll (fun x => cmp (getk x) (getk v)) l &&
      treeAll (fun x => cmp (getk v) (getk x)) r

/-- Subtree rooted at the node a path leads to (`none` when the path runs
off the tree). -/
def subtreeAt : Tree T → Path → Option (Tree T)
  | t, [] => some t
  | .nil, _ :: _ => none
  | .node l _ r, b :: p => subtreeAt (if b then r else l) p

/-- Record stored at the node a path leads to. -/
def valueAt (t : Tree T) (p : Path) : Option T :=
  match subtreeAt t p with
  | some (.node _ v _) => some v
  | _ => none

/-- Paths of all nodes, in in-order order. -/
def inorderPaths : Tree T → List Path
  | .nil => []
  | .node l _ r =>
      (inorderPaths l).map (List.cons false) ++
        [] :: (inorderPaths r).map (List.cons true)

/-- Path to the leftmost node; models `begin()`'s descent
`while (node->left) node = node->left`. -/
def leftmostPath : Tree T → Path
  | .nil => []
  | .node .nil _ _ => []
  | .node (.node a x b) _ _ => false :: leftmostPath (.node a x b)

/-- Ascent step of `operator++` on the reversed path: drop the trailing
`true` turns (while the node is its parent's right child, move up), then move
up across one `false` turn; `none` when the walk runs off the root, i.e.
reaches the sentinel. -/
def ascendRev : List Bool → Option (List Bool)
  | [] => none
  | true :: p => ascendRev p
  | false :: p => some p

/-- Ascent part of `operator++` as a path transformation. -/
def ascend (p : Path) : Option Path :=
  (ascendRev p.reverse).map List.reverse

/-- Iterator `operator++` of `intrusive_set.h`, on paths: if the node has a
right child, descend to the leftmost node of the right subtree; otherwise
ascend through the parents.  `none` is the end (sentinel) position. -/
def incPath (t : Tree T) (p : Path) : Option Path :=
  match subtreeAt t p with
  | some (.node _ _ (.node a x b)) =>
      some (p ++ true :: leftmostPath (.node a x b))
  | _ => ascend p

/-- Recursive insertion `add_to_tree` of `intrusive_set.h`: descend left when
the new record's key is less than the current node's key, otherwise right,
and attach at the empty position reached. -/
def add_to_tree (getk : T → K) (cmp : K → K → Bool) (obj : T) :
    Tree T → Tree T
  | .nil => .node .nil obj .nil
  | .node l v r =>
      if cmp (getk obj) (getk v) then .node (add_to_tree getk cmp obj l) v r
      else .node l v (add_to_tree getk cmp obj r)

/-- Path at which `add_to_tree` attaches the new record. -/
def add_path (getk : T → K) (cmp : K → K → Bool) (obj : T) :
    Tree T → Path
  | .nil => []
  | .node l v r =>
      if cmp (getk obj) (getk v) then false :: add_path getk cmp obj l
      else true :: add_path getk cmp obj r

/-- Removal of the rightmost node of a tree; models the splice of the
in-order predecessor out of its position in `erase`. -/
def removeMax : Tree T → Tree T
  | .nil => .nil
  | .node l _ .nil => l
  | .node l v (.node a x b) => .node l v (removeMax (.node a x b))

/-- Record at the rightmost node (with a fallback for the empty tree). -/
def maxValD (d : T) : Tree T → T
  | .nil => d
  | .node _ v .nil => v
  | .node _ _ (.node a x b) => maxValD d (.node a x b)

/-- Deletion of the root, as in `intrusive_set::erase`: with zero or one
child, promote the child; with two children, splice out the in-order
predecessor (rightmost node of the left subtree) and install it as the
replacement, inheriting both children. -/
def delRoot : Tree T → Tree T → Tree T
  | .nil, r => r
  | .node la lv lb, .nil => .node la lv lb
  | .node la lv lb, .node ra rv rb =>
      .node (removeMax (.node la lv lb)) (maxValD lv (.node la lv lb))
        (.node ra rv rb)

/-- Tree after `intrusive_set::erase` run at the node the path leads to. -/
def erase_at : Tree T → Path → Tree T
  | .nil, _ => .nil
  | .node l _ r, [] => delRoot l r
  | .node l v r, false :: p => .node (erase_at l p) v r
  | .node l v r, true :: p => .node l v (erase_at r p)

/-- Recursive search `bound_impl` of `intrusive_set.h`, returning the path of
the found node: descend right while the current key is less than the target;
while descending left, keep the current node as the best candidate in case
the left search reaches the sentinel. -/
def bound_impl (getk : T → K) (cmp : K → K → Bool) (key : K) :
    Tree T → Option Path
  | .nil => none
  | .node l v r =>
      if cmp (getk v) key then
        (bound_impl getk cmp key r).map (List.cons true)
      else if cmp key (getk v) then
        match bound_impl getk cmp key l with
        | some p => some (false :: p)
        | none => some []
      else some []

/-- Lower bound: `bound_impl` run from the root. -/
def lower_bound (getk : T → K) (cmp : K → K → Bool) (key : K)
    (t : Tree T) : Option Path :=
  bound_impl getk cmp key t

/-- Key equivalence of `intrusive_set.h`: neither strictly less nor strictly
greater. -/
def equals (cmp : K → K → Bool) (a b : K) : Bool :=
  !(cmp b a || cmp a b)

/-- Upper bound of `intrusive_set.h`: take the lower bound and step the
iterator once when it landed on an equivalent key. -/
def upper_bound (getk : T → K) (cmp : K → K → Bool) (key : K)
    (t : Tree T) : Option Path :=
  match lower_bound getk cmp key t with
  | none => none
  | some p =>
      match valueAt t p with
      | some v => if equals cmp key (getk v) then incPath t p else some p
      | none => some p

/-- Find of `intrusive_set.h`: the lower bound when it landed on an
equivalent key, the end position otherwise. -/
def find (getk : T → K) (cmp : K → K → Bool) (key : K)
    (t : Tree T) : Option Path :=
  match lower_bound getk cmp key t with
  | none => none
  | some p =>
      match valueAt t p with
      | some v => if equals cmp key (getk v) then some p else none
      | none => none

/-- Begin of `intrusive_set.h`: the leftmost node, or the sentinel (end,
`none`) when the tree is empty. -/
def begin : Tree T → Option Path
  | .nil => none
  | .node l v r => some (leftmostPath (.node l v r))

/-- Insert of `intrusive_set.h`: without the hint, reject a key already
present (returning the end position and leaving the tree unchanged);
otherwise run `add_to_tree` from the root and return the new record's
position. -/
def insert (getk : T → K) (cmp : K → K → Bool) (obj : T) (hint : Bool)
    (t : Tree T) : Tree T × Option Path :=
  if !hint && (find getk cmp (getk obj) t).isSome then (t, none)
  else (add_to_tree getk cmp obj t, some (add_path getk cmp obj t))

/-- Path of the node holding a given record.  The source reaches the node
directly through the iterator's pointer; the model recovers the address by
structural search for the carried record (unique in every tree the container
builds, since keys are pairwise distinct). -/
def path_of [DecidableEq T] (x : T) : Tree T → Option Path
  | .nil => none
  | .node l v r =>
      if v = x then some []
      else
        match path_of x l with
        | some p => some (false :: p)
        | none => (path_of x r).map (List.cons true)

/-- Fuelled iteration: collect records by repeated `operator++` from a
starting position; models a `for (it = begin; it != end; ++it)` walk. -/
def iter_from (t : Tree T) : Option Path → Nat → List T
  | none, _ => []
  | some _, 0 => []
  | some p, fuel + 1 =>
      match valueAt t p with
      | some v => v :: iter_from t (incPath t p) fuel
      | none => []

/-- Strict-total-order contract for a comparison object: asymmetric,
transitive, and total (keys that compare equivalent are equal).  This is the
strict-total-order case of the strict weak order the source requires of its
comparators. -/
structure IsSTO (cmp : K → K → Bool) : Prop where
  asymm : ∀ a b, cmp a b = true → cmp b a = false
  trans : ∀ a b c, cmp a b = true → cmp b c = true → cmp a c = true
  total : ∀ a b, cmp a b = false → cmp b a = false → a = b

end Intrusive

namespace Bimap

open Intrusive

/-- Pair record of `bimap.h`: one left key and one right key (the two
embedded intrusive nodes are the record's positions in the two trees and are
carried by the tree structures of the model). -/
structure storage_node (L R : Type) where
  left_key : L
  right_key : R
deriving DecidableEq

/-- Left key getter (`left_struct::getter::get`). -/
def getter_left {L R : Type} (s : storage_node L R) : L :=
  s.left_key

/-- Right key getter (`right_struct::getter::get`). -/
def getter_right {L R : Type} (s : storage_node L R) : R :=
  s.right_key

/-- Left-tree iterator of `bimap.h`: carries the addressed record, `none`
being the end iterator. -/
structure left_iterator (L R : Type) where
  it : Option (storage_node L R)
deriving DecidableEq

/-- Right-tree iterator of `bimap.h`. -/
structure right_iterator (L R : Type) where
  it : Option (storage_node L R)
deriving DecidableEq

/-- Flip of a left iterator: reinterpret the shared record through its other
embedded node.  The definition only re-tags the carried record; no tree is
consulted, mirroring the pointer casts of `template_iterator::flip`. -/
def left_iterator.flip {L R : Type} (c : left_iterator L R) :
    right_iterator L R :=
  ⟨c.it⟩

/-- Flip of a right iterator. -/
def right_iterator.flip {L R : Type} (c : right_iterator L R) :
    left_iterator L R :=
  ⟨c.it⟩

/-- Dereference of a left iterator (`operator*` through the left getter);
`none` models the undefined dereference of the end iterator. -/
def left_iterator.deref {L R : Type} (c : left_iterator L R) : Option L :=
  c.it.map getter_left

/-- Dereference of a right iterator. -/
def right_iterator.deref {L R : Type} (c : right_iterator L R) : Option R :=
  c.it.map getter_right

/-- State of a `bimap`: the two comparison objects, the two trees (the
contents hanging off the shared sentinel under each tag), and the running
pair count `m_size`. -/
structure bimap (L R : Type) where
  compare_left : L → L → Bool
  compare_right : R → R → Bool
  left_set : Intrusive.Tree (storage_node L R)
  right_set : Intrusive.Tree (storage_node L R)
  m_size : Nat

variable {L R : Type} [DecidableEq L] [DecidableEq R]

/-- Freshly constructed bimap: two empty trees and size zero. -/
def mk_bimap (cl : L → L → Bool) (cr : R → R → Bool) : bimap L R :=
  ⟨cl, cr, .nil, .nil, 0⟩

/-- Find on the left tree (`find_left`), as the record found, `none` being
the end iterator. -/
def find_left (b : bimap L R) (k : L) : Option (storage_node L R) :=
  (Intrusive.find getter_left b.compare_left k b.left_set).bind
    (valueAt b.left_set)

/-- Find on the right tree (`find_right`). -/
def find_right (b : bimap L R) (k : R) : Option (storage_node L R) :=
  (Intrusive.find getter_right b.compare_right k b.right_set).bind
    (valueAt b.right_set)

/-- Insert (`perfect_forwarding_insert`): reject (end iterator, no mutation)
unless the left key is absent from the left tree and the right key is absent
from the right tree; otherwise create the record, link it into the right
tree, then into the left tree, increment the size, and return an iterator to
the record in the left tree. -/
def insert (b : bimap L R) (l : L) (r : R) :
    bimap L R × left_iterator L R :=
  if !((find_left b l).isNone && (find_right b r).isNone) then (b, ⟨none⟩)
  else
    let storage : storage_node L R := ⟨l, r⟩
    ({ b with
        right_set :=
          (Intrusive.insert getter_right b.compare_right storage
            true b.right_set).1,
        left_set :=
          (Intrusive.insert getter_left b.compare_left storage
            true b.left_set).1,
        m_size := b.m_size + 1 },
      ⟨some storage⟩)

/-- Erase through a left iterator (`erase_left(left_iterator)`): unlink the
record's node from the right tree (located by `flip`), advance the iterator
past the record in the still-unchanged left tree, unlink the record's node
from the left tree, release the record, decrement the size, and return the
advanced iterator.  An iterator whose record is in neither tree is invalid
(undefined behaviour in the source) and is modelled as a no-op returning the
end iterator. -/
def erase_left_it (b : bimap L R) (x : storage_node L R) :
    bimap L R × left_iterator L R :=
  match path_of x b.right_set, path_of x b.left_set with
  | some q, some p =>
      ({ b with
          right_set := erase_at b.right_set q,
          left_set := erase_at b.left_set p,
          m_size := b.m_size - 1 },
        ⟨(incPath b.left_set p).bind (valueAt b.left_set)⟩)
  | _, _ => (b, ⟨none⟩)

/-- Erase through a right iterator (`erase_right(right_iterator)`). -/
def erase_right_it (b : bimap L R) (x : storage_node L R) :
    bimap L R × right_iterator L R :=
  match path_of x b.left_set, path_of x b.right_set with
  | some q, some p =>
      ({ b with
          left_set := erase_at b.left_set q,
          right_set := erase_at b.right_set p,
          m_size := b.m_size - 1 },
        ⟨(incPath b.right_set p).bind (valueAt b.right_set)⟩)
  | _, _ => (b, ⟨none⟩)

/-- Erase by left key (`erase_left(const left_t&)`): find, then erase and
report success, or report absence without mutation. -/
def erase_left_key (b : bimap L R) (k : L) : bimap L R × Bool :=
  match find_left b k with
  | some x => ((erase_left_it b x).1, true)
  | none => (b, false)

/-- Erase by right key (`erase_right(const right_t&)`). -/
def erase_right_key (b : bimap L R) (k : R) : bimap L R × Bool :=
  match find_right b k with
  | some x => ((erase_right_it b x).1, true)
  | none => (b, false)

/-- Throwing accessor `at_left`: the paired right value of an existing left
key; `none` models the `std::out_of_range` raised for an absent key. -/
def at_left (b : bimap L R) (k : L) : Option R :=
  (find_left b k).map getter_right

/-- Throwing accessor `at_right`. -/
def at_right (b : bimap L R) (k : R) : Option L :=
  (find_right b k).map getter_left

/-- Accessor `at_left_or_default`: the paired right value of an existing
left key; otherwise the default right value is constructed, any pair holding
it is erased, the pair of the key and the default is inserted, and the
stored default is returned. -/
def at_left_or_default [Inhabited R] (b : bimap L R) (k : L) :
    bimap L R × R :=
  match find_left b k with
  | some x => (b, x.right_key)
  | none =>
    let tmp : R := default
    let b1 :=
      match find_right b tmp with
      | some y => (erase_right_it b y).1
      | none => b
    match insert b1 k tmp with
    | (b2, ⟨some s⟩) => (b2, s.right_key)
    | (b2, ⟨none⟩) => (b2, tmp)

/-- Accessor `at_right_or_default`. -/
def at_right_or_default [Inhabited L] (b : bimap L R) (k : R) :
    bimap L R × L :=
  match find_right b k with
  | some x => (b, x.left_key)
  | none =>
    let tmp : L := default
    let b1 :=
      match find_left b tmp with
      | some y => (erase_left_it b y).1
      | none => b
    match insert b1 tmp k with
    | (b2, ⟨some s⟩) => (b2, s.left_key)
    | (b2, ⟨none⟩) => (b2, tmp)

/-- Lower bound on the left tree (`lower_bound_left`), as the record found. -/
def lower_bound_left (b : bimap L R) (k : L) : Option (storage_node L R) :=
  (Intrusive.lower_bound getter_left b.compare_left k
    b.left_set).bind (valueAt b.left_set)

/-- Upper bound on the left tree (`upper_bound_left`). -/
def upper_bound_left (b : bimap L R) (k : L) : Option (storage_node L R) :=
  (Intrusive.upper_bound getter_left b.compare_left k
    b.left_set).bind (valueAt b.left_set)

/-- Lower bound on the right tree (`lower_bound_right`). -/
def lower_bound_right (b : bimap L R) (k : R) : Option (storage_node L R) :=
  (Intrusive.lower_bound getter_right b.compare_right k
    b.right_set).bind (valueAt b.right_set)

/-- Upper bound on the right tree (`upper_bound_right`). -/
def upper_bound_right (b : bimap L R) (k : R) : Option (storage_node L R) :=
  (Intrusive.upper_bound getter_right b.compare_right k
    b.right_set).bind (valueAt b.right_set)

/-- Lock-step walk of `operator==`: the loop runs while the second walk has
not reached its end, comparing the two current pairs for equivalence under
the first container's two comparison objects.  The second list being longer
is unreachable behind the size guard (the source would dereference the first
walk's end iterator there). -/
def beq_loop (cl : L → L → Bool) (cr : R → R → Bool) :
    List (storage_node L R) → List (storage_node L R) → Bool
  | _, [] => true
  | x :: xs, y :: ys =>
      if cl x.left_key y.left_key || cl y.left_key x.left_key ||
          cr x.right_key y.right_key || cr y.right_key x.right_key then
        false
      else beq_loop cl cr xs ys
  | [], _ :: _ => false

/-- Structural equality `operator==`: size check, then the lock-step walk of
the two left trees in left order, under the first container's comparison
objects only.  The iterator walk of the source is modelled by the in-order
lists; the agreement of the walk with the in-order list is proved
separately. -/
def beq (a b : bimap L R) : Bool :=
  if a.m_size != b.m_size then false
  else beq_loop a.compare_left a.compare_right (inorder a.left_set)
    (inorder b.left_set)

/-- Inequality `operator!=`: the negation of `operator==`. -/
def bne (a b : bimap L R) : Bool :=
  !(beq a b)

/-- Member `swap`: swaps the two left sets (tree contents and comparison
object), the two right sets, and the sizes — a full exchange of the two
container states. -/
def swap (a b : bimap L R) : bimap L R × bimap L R :=
  (⟨b.compare_left, b.compare_right, b.left_set, b.right_set, b.m_size⟩,
    ⟨a.compare_left, a.compare_right, a.left_set, a.right_set, a.m_size⟩)

/-- Observable state of one `intrusive_set`: the tree hanging off its
sentinel's left-child slot. -/
structure set_state (T : Type) where
  root : Intrusive.Tree T

/-- Move constructor of `intrusive_set`: the member initializer list runs
`Compare(std::move(other)), sentinel()`, leaving the destination's sentinel
pointer value-initialized to null; the body then immediately executes
`sentinel->left = other.sentinel->left`, dereferencing that null pointer, so
the transfer (take the source's root, null the source's root slot) is never
reached.  The null dereference is modelled by the `Option`: the function
returns the transferred pair of states only when a destination sentinel
exists, and none does. -/
def move_construct {T : Type} (other : set_state T) :
    Option (set_state T × set_state T) :=
  let dst_sentinel : Option (set_state T) := none
  match dst_sentinel with
  | none => none
  | some _ => some (⟨other.root⟩, ⟨Intrusive.Tree.nil⟩)

/-- Container built by a sequence of insertions into a freshly constructed
bimap; used to state insertion-order insensitivity of the equality. -/
def from_inserts (cl : L → L → Bool) (cr : R → R → Bool)
    (ps : List (L × R)) : bimap L R :=
  ps.foldl (fun b p => (insert b p.1 p.2).1) (mk_bimap cl cr)

/-- Representation invariant of a bimap: both trees are binary search trees
for their keys, the size counter equals the number of stored records, and
the two trees hold the same record population. -/
structure Inv (b : bimap L R) : Prop where
  bstL : isBST getter_left b.compare_left b.left_set = true
  bstR : isBST getter_right b.compare_right b.right_set = true
  size_eq : b.m_size = (inorder b.left_set).length
  recs_perm : List.Perm (inorder b.left_set) (inorder b.right_set)

/-- States reachable from a freshly constructed bimap whose comparison
objects satisfy the strict-total-order contract, through the container's
mutators.  Erase by key, the range erases, the `at_*_or_default` accessors
and the copy constructor only compose `insert` and the iterator erases, so
their results are reachable through these constructors. -/
inductive Reachable : bimap L R → Prop where
  | init (cl : L → L → Bool) (cr : R → R → Bool) :
      IsSTO cl → IsSTO cr → Reachable (mk_bimap cl cr)
  | ins (b : bimap L R) (l : L) (r : R) :
      Reachable b → Reachable (insert b l r).1
  | erl (b : bimap L R) (x : storage_node L R) :
      Reachable b → Reachable (erase_left_it b x).1
  | err (b : bimap L R) (x : storage_node L R) :
      Reachable b → Reachable (erase_right_it b x).1

end Bimap

namespace Intrusive

variable {T K : Type}

theorem IsSTO.irrefl {cmp : K → K → Bool} (h : IsSTO cmp) (a : K) :
    cmp a a = false := by
  cases hc : cmp a a with
  | false => rfl
  | true => exact hc ▸ h.asymm a a hc

theorem treeAll_eq_true_iff (p : T → Bool) (t : Tree T) :
    treeAll p t = true ↔ ∀ x ∈ inorder t, p x = true := by
  induction t with
  | nil => simp [treeAll, inorder]
  | node l v r ihl ihr =>
      simp only [treeAll, inorder, Bool.and_eq_true, ihl, ihr,
        List.mem_append, List.mem_cons]
      constructor
      · rintro ⟨⟨hl, hv⟩, hr⟩ x (hx | hx | hx)
        · exact hl x hx
        · exact hx ▸ hv
        · exact hr x hx
      · intro h
        exact ⟨⟨fun x hx => h x (Or.inl hx), h v (Or.inr (Or.inl rfl))⟩,
          fun x hx => h x (Or.inr (Or.inr hx))⟩

theorem isBST_of_pairwise {getk : T → K} {cmp : K → K → Bool} {t : Tree T}
    (h : (inorder t).Pairwise (fun a b => cmp (getk a) (getk b) = true)) :
    isBST getk cmp t = true := by
  induction t with
  | nil => rfl
  | node l v r ihl ihr =>
      rw [inorder, List.pairwise_append] at h
      obtain ⟨hl, hvr, hcross⟩ := h
      rw [List.pairwise_cons] at hvr
      simp only [isBST, Bool.and_eq_true]
      refine ⟨⟨⟨ihl hl, ihr hvr.2⟩, ?_⟩, ?_⟩
      · rw [treeAll_eq_true_iff]
        exact fun x hx => hcross x hx v (List.mem_cons_self v _)
      · rw [treeAll_eq_true_iff]
        exact fun x hx => hvr.1 x hx

theorem pairwise_of_isBST {getk : T → K} {cmp : K → K → Bool}
    (hsto : IsSTO cmp) {t : Tree T} (h : isBST getk cmp t = true) :
    (inorder t).Pairwise (fun a b => cmp (getk a) (getk b) = true) := by
  induction t with
  | nil => exact List.Pairwise.nil
  | node l v r ihl ihr =>
      simp only [isBST, Bool.and_eq_true] at h
      obtain ⟨⟨⟨hbl, hbr⟩, hal⟩, har⟩ := h
      rw [treeAll_eq_true_iff] at hal har
      rw [inorder, List.pairwise_append]
      refine ⟨ihl hbl, ?_, ?_⟩
      · rw [List.pairwise_cons]
        exact ⟨fun y hy => har y hy, ihr hbr⟩
      · intro x hx y hy
        rcases List.mem_cons.mp hy with hy | hy
        · exact hy ▸ hal x hx
        · exact hsto.trans _ _ _ (hal x hx) (har y hy)

theorem subtreeAt_cons_false (l : Tree T) (v : T) (r : Tree T) (p : Path) :
    subtreeAt (Tree.node l v r) (false :: p) = subtreeAt l p := rfl

theorem subtreeAt_cons_true (l : Tree T) (v : T) (r : Tree T) (p : Path) :
    subtreeAt (Tree.node l v r) (true :: p) = subtreeAt r p := rfl

theorem valueAt_cons_false (l : Tree T) (v : T) (r : Tree T) (p : Path) :
    valueAt (Tree.node l v r) (false :: p) = valueAt l p := by
  unfold valueAt
  rw [subtreeAt_cons_false]

theorem valueAt_cons_true (l : Tree T) (v : T) (r : Tree T) (p : Path) :
    valueAt (Tree.node l v r) (true :: p) = valueAt r p := by
  unfold valueAt
  rw [subtreeAt_cons_true]

theorem valueAt_root (l : Tree T) (v : T) (r : Tree T) :
    valueAt (Tree.node l v r) [] = some v := rfl

theorem length_inorderPaths (t : Tree T) :
    (inorderPaths t).length = (inorder t).length := by
  induction t with
  | nil => rfl
  | node l v r ihl ihr => simp [inorderPaths, inorder, ihl, ihr]

theorem map_valueAt_inorderPaths (t : Tree T) :
    (inorderPaths t).map (valueAt t) = (inorder t).map some := by
  induction t with
  | nil => rfl
  | node l v r ihl ihr =>
      simp only [inorderPaths, inorder, List.map_append, List.map_map,
        List.map_cons]
      rw [show ((inorderPaths l).map (valueAt (Tree.node l v r) ∘
          List.cons false)) = (inorderPaths l).map (valueAt l) from
          List.map_congr_left fun q _ => valueAt_cons_false l v r q,
        show ((inorderPaths r).map (valueAt (Tree.node l v r) ∘
          List.cons true)) = (inorderPaths r).map (valueAt r) from
          List.map_congr_left fun q _ => valueAt_cons_true l v r q,
        ihl, ihr, valueAt_root]

theorem subtreeAt_of_mem_inorderPaths {t : Tree T} {p : Path}
    (h : p ∈ inorderPaths t) :
    ∃ a x b, subtreeAt t p = some (Tree.node a x b) := by
  induction t generalizing p with
  | nil => simp [inorderPaths] at h
  | node l v r ihl ihr =>
      simp only [inorderPaths, List.mem_append, List.mem_cons,
        List.mem_map] at h
      rcases h with ⟨q, hq, rfl⟩ | rfl | ⟨q, hq, rfl⟩
      · obtain ⟨a, x, b, hab⟩ := ihl hq
        exact ⟨a, x, b, by rw [subtreeAt_cons_false]; exact hab⟩
      · exact ⟨l, v, r, rfl⟩
      · obtain ⟨a, x, b, hab⟩ := ihr hq
        exact ⟨a, x, b, by rw [subtreeAt_cons_true]; exact hab⟩

theorem head?_inorderPaths :
    ∀ (l : Tree T) (v : T) (r : Tree T),
      (inorderPaths (Tree.node l v r)).head? =
        some (leftmostPath (Tree.node l v r)) := by
  intro l
  induction l with
  | nil => intro v r; rfl
  | node a x b iha ihb =>
      intro v r
      have h := iha x b
      cases hps : inorderPaths (Tree.node a x b) with
      | nil => rw [hps] at h; simp at h
      | cons q qs =>
          rw [hps] at h
          have hq : q = leftmostPath (Tree.node a x b) := by
            simpa using h
          rw [show inorderPaths (Tree.node (Tree.node a x b) v r) =
              (inorderPaths (Tree.node a x b)).map (List.cons false) ++
                [] :: (inorderPaths r).map (List.cons true) from rfl, hps]
          simp [leftmostPath, hq]

theorem ascendRev_append_false :
    ∀ rp : List Bool, ascendRev (rp ++ [false]) =
      (match ascendRev rp with
       | some q => some (q ++ [false])
       | none => some []) := by
  intro rp
  induction rp with
  | nil => rfl
  | cons b p ih =>
      cases b with
      | false => rfl
      | true => simpa [ascendRev] using ih

theorem ascendRev_append_true :
    ∀ rp : List Bool, ascendRev (rp ++ [true]) =
      (ascendRev rp).map (· ++ [true]) := by
  intro rp
  induction rp with
  | nil => rfl
  | cons b p ih =>
      cases b with
      | false => rfl
      | true => simpa [ascendRev] using ih

theorem ascend_cons_false (p : Path) :
    ascend (false :: p) =
      (match ascend p with
       | some q => some (false :: q)
       | none => some []) := by
  unfold ascend
  rw [List.reverse_cons, ascendRev_append_false]
  cases h : ascendRev p.reverse with
  | none => simp [h]
  | some q => simp [h]

theorem ascend_cons_true (p : Path) :
    ascend (true :: p) = (ascend p).map (List.cons true) := by
  unfold ascend
  rw [List.reverse_cons, ascendRev_append_true]
  cases h : ascendRev p.reverse with
  | none => simp [h]
  | some q => simp [h]

theorem incPath_eq_ascend {t : Tree T} {p : Path} {a : Tree T} {x : T}
    (h : subtreeAt t p = some (Tree.node a x Tree.nil)) :
    incPath t p = ascend p := by
  unfold incPath
  rw [h]

theorem incPath_eq_descend {t : Tree T} {p : Path} {a b1 b2 : Tree T}
    {x y : T} (h : subtreeAt t p = some (Tree.node a x (Tree.node b1 y b2))) :
    incPath t p = some (p ++ true :: leftmostPath (Tree.node b1 y b2)) := by
  unfold incPath
  rw [h]

theorem incPath_cons_false_some {l : Tree T} {p q : Path} {a : Tree T}
    {x : T} {b : Tree T} (v : T) (r : Tree T)
    (h : subtreeAt l p = some (Tree.node a x b))
    (h2 : incPath l p = some q) :
    incPath (Tree.node l v r) (false :: p) = some (false :: q) := by
  have hfp : subtreeAt (Tree.node l v r) (false :: p) =
      some (Tree.node a x b) := by rw [subtreeAt_cons_false]; exact h
  cases b with
  | node b1 y b2 =>
      rw [incPath_eq_descend h] at h2
      rw [incPath_eq_descend hfp]
      simp only [Option.some.injEq] at h2 ⊢
      rw [← h2, List.cons_append]
  | nil =>
      rw [incPath_eq_ascend h] at h2
      rw [incPath_eq_ascend hfp, ascend_cons_false, h2]

theorem incPath_cons_false_none {l : Tree T} {p : Path} {a : Tree T}
    {x : T} {b : Tree T} (v : T) (r : Tree T)
    (h : subtreeAt l p = some (Tree.node a x b))
    (h2 : incPath l p = none) :
    incPath (Tree.node l v r) (false :: p) = some [] := by
  have hfp : subtreeAt (Tree.node l v r) (false :: p) =
      some (Tree.node a x b) := by rw [subtreeAt_cons_false]; exact h
  cases b with
  | node b1 y b2 => rw [incPath_eq_descend h] at h2; exact absurd h2 (by simp)
  | nil =>
      rw [incPath_eq_ascend h] at h2
      rw [incPath_eq_ascend hfp, ascend_cons_false, h2]

theorem incPath_cons_true {r : Tree T} {p : Path} {a : Tree T}
    {x : T} {b : Tree T} (v : T) (l : Tree T)
    (h : subtreeAt r p = some (Tree.node a x b)) :
    incPath (Tree.node l v r) (true :: p) =
      (incPath r p).map (List.cons true) := by
  have hfp : subtreeAt (Tree.node l v r) (true :: p) =
      some (Tree.node a x b) := by rw [subtreeAt_cons_true]; exact h
  cases b with
  | node b1 y b2 =>
      rw [incPath_eq_descend h, incPath_eq_descend hfp]
      simp [List.cons_append]
  | nil =>
      rw [incPath_eq_ascend h, incPath_eq_ascend hfp, ascend_cons_true]

theorem incPath_root_nil (l : Tree T) (v : T) :
    incPath (Tree.node l v Tree.nil) [] = none := rfl

theorem incPath_root_node (l : Tree T) (v : T) (a : Tree T) (x : T)
    (b : Tree T) :
    incPath (Tree.node l v (Tree.node a x b)) [] =
      some (true :: leftmostPath (Tree.node a x b)) := rfl

theorem get?_zero_inorderPaths (l : Tree T) (v : T) (r : Tree T) :
    (inorderPaths (Tree.node l v r)).get? 0 =
      some (leftmostPath (Tree.node l v r)) := by
  have hh := head?_inorderPaths l v r
  cases hps : inorderPaths (Tree.node l v r) with
  | nil => rw [hps] at hh; simp at hh
  | cons q qs =>
      rw [hps] at hh
      simp only [List.head?, Option.some.injEq] at hh
      simp [hh]

theorem incPath_get (t : Tree T) :
    ∀ (i : Nat) (p : Path), (inorderPaths t).get? i = some p →
      incPath t p = (inorderPaths t).get? (i + 1) := by
  induction t with
  | nil => intro i p h; simp [inorderPaths] at h
  | node l v r ihl ihr =>
      intro i p h
      have hlen : ((inorderPaths l).map (List.cons false)).length =
          (inorderPaths l).length := by simp
      have hexp : inorderPaths (Tree.node l v r) =
          (inorderPaths l).map (List.cons false) ++
            [] :: (inorderPaths r).map (List.cons true) := rfl
      rcases lt_trichotomy i (inorderPaths l).length with hi | hi | hi
      · -- the position is inside the left subtree
        rw [hexp] at h ⊢
        rw [List.get?_append (by simpa using hi), List.get?_map] at h
        cases hq : (inorderPaths l).get? i with
        | none => rw [hq] at h; simp at h
        | some q =>
            rw [hq] at h
            simp only [Option.map_some', Option.some.injEq] at h
            subst h
            obtain ⟨a, x, b, hab⟩ :=
              subtreeAt_of_mem_inorderPaths (List.get?_mem hq)
            have hinc := ihl i q hq
            rcases Nat.lt_or_ge (i + 1) (inorderPaths l).length with h1 | h1
            · cases hq' : (inorderPaths l).get? (i + 1) with
              | none =>
                  rw [hq'] at hinc
                  exact absurd (List.get?_eq_none.mp hq') (by omega)
              | some q' =>
                  rw [hq'] at hinc
                  rw [incPath_cons_false_some v r hab hinc,
                    List.get?_append (by simpa using h1), List.get?_map, hq']
                  rfl
            · have hend : (inorderPaths l).get? (i + 1) = none :=
                List.get?_eq_none.mpr h1
              rw [hend] at hinc
              rw [incPath_cons_false_none v r hab hinc,
                List.get?_append_right (by simpa using h1)]
              have h2 : i + 1 - ((inorderPaths l).map
                  (List.cons false)).length = 0 := by
                rw [hlen]; omega
              rw [h2, List.get?_cons_zero]
      · -- the position is the root
        rw [hexp] at h ⊢
        rw [List.get?_append_right (by simp [hi])] at h
        have h0 : i - ((inorderPaths l).map (List.cons false)).length = 0 := by
          rw [hlen, hi, Nat.sub_self]
        rw [h0, List.get?_cons_zero] at h
        obtain rfl : p = [] := by simpa using h.symm
        rw [List.get?_append_right (by rw [hlen]; omega)]
        have h1 : i + 1 - ((inorderPaths l).map (List.cons false)).length
            = 1 := by rw [hlen]; omega
        rw [h1, List.get?_cons_succ]
        cases r with
        | nil => rw [incPath_root_nil]; rfl
        | node a x b =>
            rw [incPath_root_node, List.get?_map, get?_zero_inorderPaths]
            rfl
      · -- the position is inside the right subtree
        rw [hexp] at h ⊢
        rw [List.get?_append_right (by rw [hlen]; omega)] at h
        have hd : i - ((inorderPaths l).map (List.cons false)).length =
            (i - (inorderPaths l).length - 1) + 1 := by
          rw [hlen]; omega
        rw [hd, List.get?_cons_succ, List.get?_map] at h
        cases hq : (inorderPaths r).get? (i - (inorderPaths l).length - 1) with
        | none => rw [hq] at h; simp at h
        | some q =>
            rw [hq] at h
            simp only [Option.map_some', Option.some.injEq] at h
            subst h
            obtain ⟨a, x, b, hab⟩ :=
              subtreeAt_of_mem_inorderPaths (List.get?_mem hq)
            have hinc := ihr _ q hq
            rw [incPath_cons_true v l hab, hinc,
              List.get?_append_right (by rw [hlen]; omega)]
            have hd2 : i + 1 - ((inorderPaths l).map (List.cons false)).length
                = (i - (inorderPaths l).length - 1 + 1) + 1 := by
              rw [hlen]; omega
            rw [hd2, List.get?_cons_succ, List.get?_map]

theorem valueAt_get {t : Tree T} {i : Nat} {p : Path}
    (h : (inorderPaths t).get? i = some p) :
    valueAt t p = (inorder t).get? i := by
  have hm := map_valueAt_inorderPaths t
  have h1 : ((inorderPaths t).map (valueAt t)).get? i = some (valueAt t p) := by
    rw [List.get?_map, h]; rfl
  rw [hm, List.get?_map] at h1
  cases hv : (inorder t).get? i with
  | none => rw [hv] at h1; simp at h1
  | some v => rw [hv] at h1; simpa using h1.symm

theorem iter_from_drop (t : Tree T) :
    ∀ (k i : Nat), k = (inorder t).length - i →
      iter_from t ((inorderPaths t).get? i) k = (inorder t).drop i := by
  intro k
  induction k with
  | zero =>
      intro i hk
      have hge : (inorder t).length ≤ i := by omega
      have : (inorderPaths t).get? i = none :=
        List.get?_eq_none.mpr (by rw [length_inorderPaths]; exact hge)
      rw [this, List.drop_eq_nil_of_le hge]
      rfl
  | succ k ih =>
      intro i hk
      have hlt : i < (inorder t).length := by omega
      have hlt' : i < (inorderPaths t).length := by
        rw [length_inorderPaths]; exact hlt
      rw [List.get?_eq_get hlt']
      have hvp := valueAt_get (List.get?_eq_get hlt' : _)
      rw [List.get?_eq_get hlt] at hvp
      have hinc := incPath_get t i _ (List.get?_eq_get hlt')
      simp only [iter_from, hvp]
      rw [hinc, ih (i + 1) (by omega), List.drop_eq_get_cons hlt]

theorem begin_eq_get?_zero (t : Tree T) :
    begin t = (inorderPaths t).get? 0 := by
  cases t with
  | nil => rfl
  | node l v r => rw [get?_zero_inorderPaths]; rfl

theorem iter_from_begin (t : Tree T) :
    iter_from t (begin t) (inorder t).length = inorder t := by
  rw [begin_eq_get?_zero,
    iter_from_drop t (inorder t).length 0 (by omega), List.drop_zero]

theorem inorder_add_to_tree_perm (getk : T → K) (cmp : K → K → Bool)
    (obj : T) (t : Tree T) :
    List.Perm (inorder (add_to_tree getk cmp obj t)) (obj :: inorder t) := by
  induction t with
  | nil => simp [add_to_tree, inorder]
  | node l v r ihl ihr =>
      rw [add_to_tree]
      by_cases hc : cmp (getk obj) (getk v) = true
      · rw [if_pos hc, inorder, inorder, ← List.cons_append]
        exact ihl.append_right _
      · rw [if_neg hc, inorder, inorder]
        have h1 : List.Perm (inorder l ++ v :: inorder
            (add_to_tree getk cmp obj r)) (inorder l ++ v :: obj :: inorder r)
          := (ihr.cons v).append_left _
        refine h1.trans ?_
        have h2 : inorder l ++ v :: obj :: inorder r =
            (inorder l ++ [v]) ++ obj :: inorder r := by simp
        have h3 : obj :: (inorder l ++ v :: inorder r) =
            obj :: ((inorder l ++ [v]) ++ inorder r) := by simp
        rw [h2, h3]
        exact List.perm_middle

theorem treeAll_add_to_tree {getk : T → K} {cmp : K → K → Bool}
    {p : T → Bool} {obj : T} {t : Tree T} (hobj : p obj = true)
    (ht : treeAll p t = true) :
    treeAll p (add_to_tree getk cmp obj t) = true := by
  rw [treeAll_eq_true_iff] at ht ⊢
  intro x hx
  have hx' := (inorder_add_to_tree_perm getk cmp obj t).mem_iff.mp hx
  rcases List.mem_cons.mp hx' with rfl | hx'
  · exact hobj
  · exact ht x hx'

theorem isBST_add_to_tree {getk : T → K} {cmp : K → K → Bool} {obj : T}
    {t : Tree T} (hb : isBST getk cmp t = true)
    (hcomp : ∀ y ∈ inorder t, cmp (getk obj) (getk y) = true ∨
      cmp (getk y) (getk obj) = true) :
    isBST getk cmp (add_to_tree getk cmp obj t) = true := by
  induction t with
  | nil => rfl
  | node l v r ihl ihr =>
      simp only [isBST, Bool.and_eq_true] at hb
      obtain ⟨⟨⟨hbl, hbr⟩, hal⟩, har⟩ := hb
      rw [add_to_tree]
      by_cases hc : cmp (getk obj) (getk v) = true
      · rw [if_pos hc]
        simp only [isBST, Bool.and_eq_true]
        refine ⟨⟨⟨?_, hbr⟩, ?_⟩, har⟩
        · exact ihl hbl fun y hy =>
            hcomp y (by rw [inorder]; simp [hy])
        · exact treeAll_add_to_tree hc hal
      · rw [if_neg hc]
        have hvo : cmp (getk v) (getk obj) = true := by
          rcases hcomp v (by rw [inorder]; simp) with h | h
          · exact absurd h hc
          · exact h
        simp only [isBST, Bool.and_eq_true]
        refine ⟨⟨⟨hbl, ?_⟩, hal⟩, ?_⟩
        · exact ihr hbr fun y hy =>
            hcomp y (by rw [inorder]; simp [hy])
        · exact treeAll_add_to_tree hvo har

theorem removeMax_spec (d : T) :
    ∀ t : Tree T, t ≠ Tree.nil →
      inorder (removeMax t) ++ [maxValD d t] = inorder t := by
  intro t
  induction t with
  | nil => intro h; exact absurd rfl h
  | node l v r ihl ihr =>
      intro _
      cases r with
      | nil => simp [removeMax, maxValD, inorder]
      | node a x b =>
          rw [show removeMax (Tree.node l v (Tree.node a x b)) =
                Tree.node l v (removeMax (Tree.node a x b)) from rfl,
            show maxValD d (Tree.node l v (Tree.node a x b)) =
                maxValD d (Tree.node a x b) from rfl,
            inorder, inorder]
          rw [List.append_assoc, List.cons_append,
            ihr (by simp)]

theorem inorder_delRoot (l r : Tree T) :
    inorder (delRoot l r) = inorder l ++ inorder r := by
  cases l with
  | nil => simp [delRoot, inorder]
  | node la lv lb =>
      cases r with
      | nil => simp [delRoot, inorder]
      | node ra rv rb =>
          rw [show delRoot (Tree.node la lv lb) (Tree.node ra rv rb) =
              Tree.node (removeMax (Tree.node la lv lb))
                (maxValD lv (Tree.node la lv lb))
                (Tree.node ra rv rb) from rfl, inorder]
          rw [show inorder (removeMax (Tree.node la lv lb)) ++
                maxValD lv (Tree.node la lv lb) :: inorder (Tree.node ra rv rb)
              = (inorder (removeMax (Tree.node la lv lb)) ++
                [maxValD lv (Tree.node la lv lb)]) ++
                inorder (Tree.node ra rv rb) by simp]
          rw [removeMax_spec lv (Tree.node la lv lb) (by simp)]

theorem erase_at_split :
    ∀ (t : Tree T) (p : Path) (a : Tree T) (x : T) (b : Tree T),
      subtreeAt t p = some (Tree.node a x b) →
      ∃ u w, inorder t = u ++ x :: w ∧ inorder (erase_at t p) = u ++ w := by
  intro t
  induction t with
  | nil => intro p a x b h; cases p <;> simp [subtreeAt] at h
  | node l v r ihl ihr =>
      intro p a x b h
      cases p with
      | nil =>
          simp only [subtreeAt, Option.some.injEq, Tree.node.injEq] at h
          obtain ⟨rfl, rfl, rfl⟩ := h
          exact ⟨inorder l, inorder r, rfl, by
            rw [show erase_at (Tree.node l v r) [] = delRoot l r from rfl,
              inorder_delRoot]⟩
      | cons hd tl =>
          cases hd with
          | false =>
              rw [subtreeAt_cons_false] at h
              obtain ⟨u, w, hu, hw⟩ := ihl tl a x b h
              refine ⟨u, w ++ v :: inorder r, ?_, ?_⟩
              · rw [inorder, hu]; simp
              · rw [show erase_at (Tree.node l v r) (false :: tl) =
                    Tree.node (erase_at l tl) v r from rfl, inorder, hw]
                simp
          | true =>
              rw [subtreeAt_cons_true] at h
              obtain ⟨u, w, hu, hw⟩ := ihr tl a x b h
              refine ⟨inorder l ++ v :: u, w, ?_, ?_⟩
              · rw [inorder, hu]; simp
              · rw [show erase_at (Tree.node l v r) (true :: tl) =
                    Tree.node l v (erase_at r tl) from rfl, inorder, hw]
                simp

theorem path_of_subtreeAt [DecidableEq T] {x : T} :
    ∀ (t : Tree T) (p : Path), path_of x t = some p →
      ∃ a b, subtreeAt t p = some (Tree.node a x b) := by
  intro t
  induction t with
  | nil => intro p h; simp [path_of] at h
  | node l v r ihl ihr =>
      intro p h
      rw [path_of] at h
      by_cases hv : v = x
      · rw [if_pos hv] at h
        injection h with h
        subst h
        exact ⟨l, r, by rw [hv]; rfl⟩
      · rw [if_neg hv] at h
        cases hl : path_of x l with
        | some q =>
            rw [hl] at h
            injection h with h
            subst h
            obtain ⟨a, b, hab⟩ := ihl q hl
            exact ⟨a, b, by rw [subtreeAt_cons_false]; exact hab⟩
        | none =>
            rw [hl] at h
            cases hr : path_of x r with
            | none => rw [hr] at h; simp at h
            | some q =>
                rw [hr] at h
                simp only [Option.map_some', Option.some.injEq] at h
                subst h
                obtain ⟨a, b, hab⟩ := ihr q hr
                exact ⟨a, b, by rw [subtreeAt_cons_true]; exact hab⟩

theorem path_of_none_iff [DecidableEq T] {x : T} :
    ∀ t : Tree T, path_of x t = none ↔ x ∉ inorder t := by
  intro t
  induction t with
  | nil => simp [path_of, inorder]
  | node l v r ihl ihr =>
      rw [path_of, inorder]
      by_cases hv : v = x
      · rw [if_pos hv]
        simp [hv]
      · rw [if_neg hv]
        cases hl : path_of x l with
        | some q =>
            have hx : x ∈ inorder l := by
              by_contra hx
              rw [ihl.mpr hx] at hl
              simp at hl
            exact iff_of_false (by simp)
              (fun hmem => hmem (List.mem_append.mpr (Or.inl hx)))
        | none =>
            cases hr : path_of x r with
            | some q =>
                have hx : x ∈ inorder r := by
                  by_contra hx
                  rw [ihr.mpr hx] at hr
                  simp at hr
                exact iff_of_false (by simp)
                  (fun hmem => hmem (List.mem_append.mpr
                    (Or.inr (List.mem_cons.mpr (Or.inr hx)))))
            | none =>
                simp only [Option.map_none', true_iff]
                intro hmem
                rcases List.mem_append.mp hmem with hm | hm
                · exact (ihl.mp hl) hm
                · rcases List.mem_cons.mp hm with hm | hm
                  · exact hv hm.symm
                  · exact (ihr.mp hr) hm

theorem valueAt_of_subtreeAt {t : Tree T} {p : Path} {a : Tree T} {x : T}
    {b : Tree T} (h : subtreeAt t p = some (Tree.node a x b)) :
    valueAt t p = some x := by
  unfold valueAt
  rw [h]

theorem mem_inorderPaths_of_subtreeAt :
    ∀ (t : Tree T) (p : Path) (a : Tree T) (x : T) (b : Tree T),
      subtreeAt t p = some (Tree.node a x b) → p ∈ inorderPaths t := by
  intro t
  induction t with
  | nil => intro p a x b h; cases p <;> simp [subtreeAt] at h
  | node l v r ihl ihr =>
      intro p a x b h
      cases p with
      | nil => simp [inorderPaths]
      | cons hd tl =>
          cases hd with
          | false =>
              rw [subtreeAt_cons_false] at h
              have := ihl tl a x b h
              simp only [inorderPaths, List.mem_append, List.mem_cons,
                List.mem_map]
              exact Or.inl ⟨tl, this, rfl⟩
          | true =>
              rw [subtreeAt_cons_true] at h
              have := ihr tl a x b h
              simp only [inorderPaths, List.mem_append, List.mem_cons,
                List.mem_map]
              exact Or.inr (Or.inr ⟨tl, this, rfl⟩)

theorem find?_middle {α : Type} {p : α → Bool} {u w : List α} {x : α}
    (hu : ∀ y ∈ u, p y = false) (hx : p x = true) :
    (u ++ x :: w).find? p = some x := by
  induction u with
  | nil => simp [List.find?, hx]
  | cons a u ih =>
      rw [List.cons_append, List.find?]
      rw [hu a (List.mem_cons_self a u)]
      exact ih fun y hy => hu y (List.mem_cons.mpr (Or.inr hy))

theorem find?_all_true {α : Type} {p : α → Bool} {w : List α}
    (hw : ∀ y ∈ w, p y = true) : w.find? p = w.head? := by
  cases w with
  | nil => rfl
  | cons a w => rw [List.find?, hw a (List.mem_cons_self a w)]; rfl

theorem bind_valueAt_get? (t : Tree T) (j : Nat) :
    ((inorderPaths t).get? j).bind (valueAt t) = (inorder t).get? j := by
  cases hp : (inorderPaths t).get? j with
  | some p => rw [← valueAt_get hp]; rfl
  | none =>
      have hlen := List.get?_eq_none.mp hp
      rw [length_inorderPaths] at hlen
      rw [List.get?_eq_none.mpr hlen]
      rfl

theorem nodup_inorder {getk : T → K} {cmp : K → K → Bool} (hsto : IsSTO cmp)
    {t : Tree T} (hb : isBST getk cmp t = true) : (inorder t).Nodup := by
  have hp := pairwise_of_isBST hsto hb
  exact hp.imp fun {a b} hab => by
    intro hEq
    subst hEq
    rw [hsto.irrefl (getk a)] at hab
    exact Bool.false_ne_true hab

theorem bound_impl_none_forall {getk : T → K} {cmp : K → K → Bool}
    (hsto : IsSTO cmp) (key : K) :
    ∀ t : Tree T, isBST getk cmp t = true →
      bound_impl getk cmp key t = none →
      ∀ x ∈ inorder t, cmp (getk x) key = true := by
  intro t
  induction t with
  | nil => intro _ _ x hx; simp [inorder] at hx
  | node l v r ihl ihr =>
      intro hb h x hx
      simp only [isBST, Bool.and_eq_true] at hb
      obtain ⟨⟨⟨hbl, hbr⟩, hal⟩, har⟩ := hb
      rw [treeAll_eq_true_iff] at hal har
      rw [bound_impl] at h
      by_cases hc : cmp (getk v) key = true
      · rw [if_pos hc] at h
        have hr : bound_impl getk cmp key r = none := by
          cases hbi : bound_impl getk cmp key r with
          | none => rfl
          | some q => rw [hbi] at h; simp at h
        rw [inorder] at hx
        rcases List.mem_append.mp hx with hm | hm
        · exact hsto.trans _ _ _ (hal x hm) hc
        · rcases List.mem_cons.mp hm with rfl | hm
          · exact hc
          · exact ihr hbr hr x hm
      · rw [if_neg hc] at h
        by_cases hc2 : cmp key (getk v) = true
        · rw [if_pos hc2] at h
          cases hbl' : bound_impl getk cmp key l with
          | none => rw [hbl'] at h; simp at h
          | some q => rw [hbl'] at h; simp at h
        · rw [if_neg hc2] at h
          simp at h

theorem bound_impl_some_spec {getk : T → K} {cmp : K → K → Bool}
    (hsto : IsSTO cmp) (key : K) :
    ∀ t : Tree T, isBST getk cmp t = true →
      ∀ p, bound_impl getk cmp key t = some p →
        ∃ a x b u w, subtreeAt t p = some (Tree.node a x b) ∧
          cmp (getk x) key = false ∧
          inorder t = u ++ x :: w ∧
          (∀ y ∈ u, cmp (getk y) key = true) := by
  intro t
  induction t with
  | nil => intro _ p h; simp [bound_impl] at h
  | node l v r ihl ihr =>
      intro hb p h
      simp only [isBST, Bool.and_eq_true] at hb
      obtain ⟨⟨⟨hbl, hbr⟩, hal⟩, har⟩ := hb
      rw [treeAll_eq_true_iff] at hal har
      rw [bound_impl] at h
      by_cases hc : cmp (getk v) key = true
      · rw [if_pos hc] at h
        cases hbi : bound_impl getk cmp key r with
        | none => rw [hbi] at h; simp at h
        | some q =>
            rw [hbi] at h
            simp only [Option.map_some', Option.some.injEq] at h
            subst h
            obtain ⟨a, x, b, u, w, hsub, hnl, hsplit, hu⟩ := ihr hbr q hbi
            refine ⟨a, x, b, inorder l ++ v :: u, w, ?_, hnl, ?_, ?_⟩
            · rw [subtreeAt_cons_true]; exact hsub
            · rw [inorder, hsplit]; simp
            · intro y hy
              rcases List.mem_append.mp hy with hm | hm
              · exact hsto.trans _ _ _ (hal y hm) hc
              · rcases List.mem_cons.mp hm with rfl | hm
                · exact hc
                · exact hu y hm
      · rw [if_neg hc] at h
        by_cases hc2 : cmp key (getk v) = true
        · rw [if_pos hc2] at h
          cases hbl' : bound_impl getk cmp key l with
          | some q =>
              rw [hbl'] at h
              simp only [Option.some.injEq] at h
              subst h
              obtain ⟨a, x, b, u, w, hsub, hnl, hsplit, hu⟩ := ihl hbl q hbl'
              refine ⟨a, x, b, u, w ++ v :: inorder r, ?_, hnl, ?_, hu⟩
              · rw [subtreeAt_cons_false]; exact hsub
              · rw [inorder, hsplit]; simp
          | none =>
              rw [hbl'] at h
              simp only [Option.some.injEq] at h
              subst h
              refine ⟨l, v, r, inorder l, inorder r, rfl,
                Bool.eq_false_iff.mpr hc, rfl, ?_⟩
              exact bound_impl_none_forall hsto key l hbl hbl'
        · rw [if_neg hc2] at h
          simp only [Option.some.injEq] at h
          subst h
          have hkey : key = getk v := hsto.total key (getk v)
            (Bool.eq_false_iff.mpr hc2) (Bool.eq_false_iff.mpr hc)
          refine ⟨l, v, r, inorder l, inorder r, rfl,
            Bool.eq_false_iff.mpr hc, rfl, ?_⟩
          intro y hy
          rw [hkey]
          exact hal y hy

theorem find?_prefix_false {α : Type} {p : α → Bool} {u w : List α}
    (hu : ∀ y ∈ u, p y = false) : (u ++ w).find? p = w.find? p := by
  induction u with
  | nil => rfl
  | cons a u ih =>
      rw [List.cons_append, List.find?, hu a (List.mem_cons_self a u)]
      exact ih fun y hy => hu y (List.mem_cons.mpr (Or.inr hy))

theorem incPath_bind_of_split {t : Tree T} {p : Path} {a : Tree T} {x : T}
    {b : Tree T} {u w : List T} (hnd : (inorder t).Nodup)
    (hsub : subtreeAt t p = some (Tree.node a x b))
    (hsplit : inorder t = u ++ x :: w) :
    (incPath t p).bind (valueAt t) = w.head? := by
  have hpmem := mem_inorderPaths_of_subtreeAt t p a x b hsub
  rcases List.mem_iff_get.mp hpmem with ⟨⟨i, hilt⟩, hget⟩
  have hgi : (inorderPaths t).get? i = some p := by
    rw [List.get?_eq_get hilt, hget]
  have hvi : (inorder t).get? i = some x := by
    rw [← valueAt_get hgi]
    exact valueAt_of_subtreeAt hsub
  have hul : (inorder t).get? u.length = some x := by
    rw [hsplit, List.get?_append_right (le_refl _), Nat.sub_self,
      List.get?_cons_zero]
  have hie : i = u.length := by
    have hilt2 : i < (inorder t).length :=
      (List.get?_eq_some.mp hvi).1
    exact List.get?_inj hilt2 hnd (hvi.trans hul.symm)
  rw [incPath_get t i p hgi, bind_valueAt_get?, hie, hsplit,
    List.get?_append_right (by omega),
    show u.length + 1 - u.length = 1 by omega, List.get?_cons_succ]
  cases w <;> rfl

theorem lower_bound_bind {getk : T → K} {cmp : K → K → Bool}
    (hsto : IsSTO cmp) {t : Tree T} (hb : isBST getk cmp t = true) (key : K) :
    (lower_bound getk cmp key t).bind (valueAt t) =
      (inorder t).find? (fun x => !cmp (getk x) key) := by
  unfold lower_bound
  cases hlb : bound_impl getk cmp key t with
  | none =>
      have hall := bound_impl_none_forall hsto key t hb hlb
      rw [List.find?_eq_none.mpr fun x hx => by rw [hall x hx]; simp]
      rfl
  | some p =>
      obtain ⟨a, x, b, u, w, hsub, hnl, hsplit, hu⟩ :=
        bound_impl_some_spec hsto key t hb p hlb
      rw [Option.some_bind, valueAt_of_subtreeAt hsub, hsplit,
        find?_middle (fun y hy => by rw [hu y hy]; rfl)
          (by rw [hnl]; rfl)]

theorem find_none_iff {getk : T → K} {cmp : K → K → Bool}
    (hsto : IsSTO cmp) {t : Tree T} (hb : isBST getk cmp t = true) (key : K) :
    Intrusive.find getk cmp key t = none ↔
      ∀ x ∈ inorder t, getk x ≠ key := by
  unfold find
  cases hlb : lower_bound getk cmp key t with
  | none =>
      refine iff_of_true rfl ?_
      intro x hx heq
      have hall := bound_impl_none_forall hsto key t hb hlb
      have := hall x hx
      rw [heq] at this
      rw [hsto.irrefl key] at this
      exact Bool.false_ne_true this
  | some p =>
      obtain ⟨a, x, b, u, w, hsub, hnl, hsplit, hu⟩ :=
        bound_impl_some_spec hsto key t hb p hlb
      simp only [valueAt_of_subtreeAt hsub]
      by_cases he : equals cmp key (getk x) = true
      · rw [if_pos he]
        have hkey : key = getk x := by
          unfold equals at he
          simp only [Bool.not_eq_true', Bool.or_eq_false_iff] at he
          exact hsto.total key (getk x) he.2 he.1
        refine iff_of_false (by simp) ?_
        intro hforall
        exact hforall x (by rw [hsplit]; simp) hkey.symm
      · rw [if_neg he]
        have hgt : cmp key (getk x) = true := by
          unfold equals at he
          rw [hnl] at he
          simpa using he
        refine iff_of_true rfl ?_
        have hp := pairwise_of_isBST hsto hb
        rw [hsplit] at hp
        rw [List.pairwise_append] at hp
        obtain ⟨hpu, hpxw, hpcross⟩ := hp
        rw [List.pairwise_cons] at hpxw
        intro y hy heq
        rw [hsplit] at hy
        rcases List.mem_append.mp hy with hm | hm
        · have := hu y hm
          rw [heq] at this
          rw [hsto.irrefl key] at this
          exact Bool.false_ne_true this
        · rcases List.mem_cons.mp hm with rfl | hm
          · rw [heq] at hgt
            rw [hsto.irrefl key] at hgt
            exact Bool.false_ne_true hgt
          · have hxy := hpxw.1 y hm
            rw [heq] at hxy
            rw [hxy] at hnl
            exact Bool.noConfusion hnl

theorem find_some_spec {getk : T → K} {cmp : K → K → Bool}
    (hsto : IsSTO cmp) {t : Tree T} (hb : isBST getk cmp t = true)
    {key : K} {p : Path} (h : Intrusive.find getk cmp key t = some p) :
    ∃ a x b, subtreeAt t p = some (Tree.node a x b) ∧ getk x = key := by
  unfold find at h
  cases hlb : lower_bound getk cmp key t with
  | none => rw [hlb] at h; simp at h
  | some p' =>
      rw [hlb] at h
      obtain ⟨a, x, b, u, w, hsub, hnl, hsplit, hu⟩ :=
        bound_impl_some_spec hsto key t hb p' hlb
      simp only [valueAt_of_subtreeAt hsub] at h
      by_cases he : equals cmp key (getk x) = true
      · rw [if_pos he] at h
        injection h with h
        subst h
        have hkey : key = getk x := by
          unfold equals at he
          simp only [Bool.not_eq_true', Bool.or_eq_false_iff] at he
          exact hsto.total key (getk x) he.2 he.1
        exact ⟨a, x, b, hsub, hkey.symm⟩
      · rw [if_neg he] at h
        simp at h

theorem upper_bound_bind {getk : T → K} {cmp : K → K → Bool}
    (hsto : IsSTO cmp) {t : Tree T} (hb : isBST getk cmp t = true) (key : K) :
    (upper_bound getk cmp key t).bind (valueAt t) =
      (inorder t).find? (fun x => cmp key (getk x)) := by
  unfold upper_bound
  cases hlb : lower_bound getk cmp key t with
  | none =>
      have hall := bound_impl_none_forall hsto key t hb hlb
      rw [List.find?_eq_none.mpr fun x hx => by
        rw [hsto.asymm _ _ (hall x hx)]; simp]
      rfl
  | some p =>
      obtain ⟨a, x, b, u, w, hsub, hnl, hsplit, hu⟩ :=
        bound_impl_some_spec hsto key t hb p hlb
      simp only [valueAt_of_subtreeAt hsub]
      have hp := pairwise_of_isBST hsto hb
      rw [hsplit] at hp
      rw [List.pairwise_append] at hp
      obtain ⟨hpu, hpxw, hpcross⟩ := hp
      rw [List.pairwise_cons] at hpxw
      by_cases he : equals cmp key (getk x) = true
      · rw [if_pos he]
        have hkey : key = getk x := by
          unfold equals at he
          simp only [Bool.not_eq_true', Bool.or_eq_false_iff] at he
          exact hsto.total key (getk x) he.2 he.1
        rw [incPath_bind_of_split (nodup_inorder hsto hb) hsub hsplit,
          hsplit,
          show u ++ x :: w = (u ++ [x]) ++ w by simp,
          find?_prefix_false (fun y hy => ?_),
          find?_all_true (fun y hy => ?_)]
        · have hxy := hpxw.1 y hy
          rw [hkey]
          exact hxy
        · rcases List.mem_append.mp hy with hm | hm
          · exact hsto.asymm _ _ (hu y hm)
          · rcases List.mem_cons.mp hm with rfl | hm
            · rw [← hkey, hsto.irrefl key]
            · simp at hm
      · rw [if_neg he]
        have hgt : cmp key (getk x) = true := by
          unfold equals at he
          rw [hnl] at he
          simpa using he
        rw [Option.some_bind, valueAt_of_subtreeAt hsub, hsplit,
          find?_middle (fun y hy => hsto.asymm _ _ (hu y hy)) hgt]

theorem mem_inorder_of_subtreeAt {t : Tree T} {p : Path} {a : Tree T}
    {x : T} {b : Tree T} (h : subtreeAt t p = some (Tree.node a x b)) :
    x ∈ inorder t := by
  have hm := mem_inorderPaths_of_subtreeAt t p a x b h
  rcases List.mem_iff_get.mp hm with ⟨⟨i, hi⟩, hget⟩
  have hv : valueAt t p = (inorder t).get? i :=
    valueAt_get (by rw [List.get?_eq_get hi, hget])
  rw [valueAt_of_subtreeAt h] at hv
  exact List.get?_mem hv.symm

theorem eq_of_pairwise_mem {α : Type} {Rel : α → α → Prop} {x y : α}
    (hxy : ¬Rel x y) (hyx : ¬Rel y x) :
    ∀ {l : List α}, l.Pairwise Rel → x ∈ l → y ∈ l → x = y := by
  intro l
  induction l with
  | nil => intro _ hx _; simp at hx
  | cons a l ih =>
      intro hp hx hy
      rw [List.pairwise_cons] at hp
      rcases List.mem_cons.mp hx with hxa | hx2
      · rcases List.mem_cons.mp hy with hya | hy2
        · rw [hxa, hya]
        · subst hxa
          exact absurd (hp.1 y hy2) hxy
      · rcases List.mem_cons.mp hy with hya | hy2
        · subst hya
          exact absurd (hp.1 x hx2) hyx
        · exact ih hp.2 hx2 hy2

theorem eq_of_mem_key_eq {getk : T → K} {cmp : K → K → Bool}
    (hsto : IsSTO cmp) {t : Tree T} (hb : isBST getk cmp t = true)
    {x y : T} (hx : x ∈ inorder t) (hy : y ∈ inorder t)
    (hkey : getk x = getk y) : x = y := by
  have hp := pairwise_of_isBST hsto hb
  refine eq_of_pairwise_mem ?_ ?_ hp hx hy
  · rw [hkey, hsto.irrefl (getk y)]; simp
  · rw [hkey, hsto.irrefl (getk y)]; simp

theorem find_complete {getk : T → K} {cmp : K → K → Bool}
    (hsto : IsSTO cmp) {t : Tree T} (hb : isBST getk cmp t = true)
    {x : T} (hx : x ∈ inorder t) :
    ∃ p, Intrusive.find getk cmp (getk x) t = some p ∧
      valueAt t p = some x := by
  cases hf : Intrusive.find getk cmp (getk x) t with
  | none =>
      exact absurd rfl ((find_none_iff hsto hb (getk x)).mp hf x hx)
  | some p =>
      obtain ⟨a, y, bb, hsub, hkey⟩ := find_some_spec hsto hb hf
      have hxy : y = x :=
        eq_of_mem_key_eq hsto hb (mem_inorder_of_subtreeAt hsub) hx hkey
      exact ⟨p, rfl, by rw [valueAt_of_subtreeAt hsub, hxy]⟩

end Intrusive

namespace Bimap

open Intrusive

variable {L R : Type} [DecidableEq L] [DecidableEq R]

theorem find_left_none_iff {b : bimap L R} (hsto : IsSTO b.compare_left)
    (hb : isBST getter_left b.compare_left b.left_set = true) (k : L) :
    find_left b k = none ↔
      ∀ x ∈ inorder b.left_set, getter_left x ≠ k := by
  unfold find_left
  cases hf : Intrusive.find getter_left b.compare_left k b.left_set with
  | none =>
      exact iff_of_true rfl ((find_none_iff hsto hb k).mp hf)
  | some p =>
      obtain ⟨a, x, bb, hsub, hkey⟩ := find_some_spec hsto hb hf
      simp only [Option.some_bind, valueAt_of_subtreeAt hsub]
      refine iff_of_false (by simp) ?_
      intro hforall
      exact hforall x (mem_inorder_of_subtreeAt hsub) hkey

theorem find_right_none_iff {b : bimap L R} (hsto : IsSTO b.compare_right)
    (hb : isBST getter_right b.compare_right b.right_set = true) (k : R) :
    find_right b k = none ↔
      ∀ x ∈ inorder b.right_set, getter_right x ≠ k := by
  unfold find_right
  cases hf : Intrusive.find getter_right b.compare_right k b.right_set with
  | none =>
      exact iff_of_true rfl ((find_none_iff hsto hb k).mp hf)
  | some p =>
      obtain ⟨a, x, bb, hsub, hkey⟩ := find_some_spec hsto hb hf
      simp only [Option.some_bind, valueAt_of_subtreeAt hsub]
      refine iff_of_false (by simp) ?_
      intro hforall
      exact hforall x (mem_inorder_of_subtreeAt hsub) hkey

theorem find_left_some_spec {b : bimap L R} (hsto : IsSTO b.compare_left)
    (hb : isBST getter_left b.compare_left b.left_set = true) {k : L}
    {x : storage_node L R} (h : find_left b k = some x) :
    getter_left x = k ∧ x ∈ inorder b.left_set := by
  unfold find_left at h
  cases hf : Intrusive.find getter_left b.compare_left k b.left_set with
  | none => rw [hf] at h; simp at h
  | some p =>
      obtain ⟨a, y, bb, hsub, hkey⟩ := find_some_spec hsto hb hf
      rw [hf] at h
      simp only [Option.some_bind, valueAt_of_subtreeAt hsub,
        Option.some.injEq] at h
      subst h
      exact ⟨hkey, mem_inorder_of_subtreeAt hsub⟩

theorem find_right_some_spec {b : bimap L R} (hsto : IsSTO b.compare_right)
    (hb : isBST getter_right b.compare_right b.right_set = true) {k : R}
    {x : storage_node L R} (h : find_right b k = some x) :
    getter_right x = k ∧ x ∈ inorder b.right_set := by
  unfold find_right at h
  cases hf : Intrusive.find getter_right b.compare_right k b.right_set with
  | none => rw [hf] at h; simp at h
  | some p =>
      obtain ⟨a, y, bb, hsub, hkey⟩ := find_some_spec hsto hb hf
      rw [hf] at h
      simp only [Option.some_bind, valueAt_of_subtreeAt hsub,
        Option.some.injEq] at h
      subst h
      exact ⟨hkey, mem_inorder_of_subtreeAt hsub⟩

theorem find_left_complete {b : bimap L R} (hsto : IsSTO b.compare_left)
    (hb : isBST getter_left b.compare_left b.left_set = true)
    {x : storage_node L R} (hx : x ∈ inorder b.left_set) :
    find_left b (getter_left x) = some x := by
  obtain ⟨p, hf, hv⟩ := find_complete hsto hb hx
  unfold find_left
  rw [hf]
  simpa using hv

theorem find_right_complete {b : bimap L R} (hsto : IsSTO b.compare_right)
    (hb : isBST getter_right b.compare_right b.right_set = true)
    {x : storage_node L R} (hx : x ∈ inorder b.right_set) :
    find_right b (getter_right x) = some x := by
  obtain ⟨p, hf, hv⟩ := find_complete hsto hb hx
  unfold find_right
  rw [hf]
  simpa using hv

theorem insert_of_absent {b : bimap L R} {l : L} {r : R}
    (hl : find_left b l = none) (hr : find_right b r = none) :
    insert b l r =
      ({ b with
          right_set := add_to_tree getter_right b.compare_right ⟨l, r⟩
            b.right_set,
          left_set := add_to_tree getter_left b.compare_left ⟨l, r⟩
            b.left_set,
          m_size := b.m_size + 1 },
        ⟨some ⟨l, r⟩⟩) := by
  unfold insert Intrusive.insert
  rw [hl, hr]
  rfl

theorem insert_of_left_present {b : bimap L R} {l : L} {r : R}
    {x : storage_node L R} (hl : find_left b l = some x) :
    insert b l r = (b, ⟨none⟩) := by
  unfold insert
  rw [hl]
  rfl

theorem insert_of_right_present {b : bimap L R} {l : L} {r : R}
    {x : storage_node L R} (hr : find_right b r = some x) :
    insert b l r = (b, ⟨none⟩) := by
  unfold insert
  rw [hr]
  simp

theorem comparable_of_ne {K : Type} {cmp : K → K → Bool} (hsto : IsSTO cmp)
    {a b : K} (hne : a ≠ b) : cmp a b = true ∨ cmp b a = true := by
  cases h1 : cmp a b with
  | true => exact Or.inl rfl
  | false =>
      cases h2 : cmp b a with
      | true => exact Or.inr rfl
      | false => exact absurd (hsto.total a b h1 h2) hne

theorem inv_mk_bimap (cl : L → L → Bool) (cr : R → R → Bool) :
    Inv (mk_bimap cl cr) :=
  ⟨rfl, rfl, rfl, List.Perm.refl _⟩

theorem inv_insert {b : bimap L R} (hinv : Inv b)
    (hL : IsSTO b.compare_left) (hR : IsSTO b.compare_right) (l : L) (r : R) :
    Inv (insert b l r).1 := by
  cases hfl : find_left b l with
  | some x => rw [insert_of_left_present hfl]; exact hinv
  | none =>
      cases hfr : find_right b r with
      | some x => rw [insert_of_right_present hfr]; exact hinv
      | none =>
          rw [insert_of_absent hfl hfr]
          have hlkeys := (find_left_none_iff hL hinv.bstL l).mp hfl
          have hrkeys := (find_right_none_iff hR hinv.bstR r).mp hfr
          have hpl := inorder_add_to_tree_perm getter_left b.compare_left
            (⟨l, r⟩ : storage_node L R) b.left_set
          have hpr := inorder_add_to_tree_perm getter_right b.compare_right
            (⟨l, r⟩ : storage_node L R) b.right_set
          refine ⟨?_, ?_, ?_, ?_⟩
          · exact isBST_add_to_tree hinv.bstL fun y hy =>
              comparable_of_ne hL fun hEq => hlkeys y hy hEq.symm
          · exact isBST_add_to_tree hinv.bstR fun y hy =>
              comparable_of_ne hR fun hEq => hrkeys y hy hEq.symm
          · rw [hpl.length_eq]
            simp [hinv.size_eq]
          · exact hpl.trans ((hinv.recs_perm.cons _).trans hpr.symm)

theorem erase_left_it_spec {b : bimap L R} (hinv : Inv b)
    (hL : IsSTO b.compare_left) (hR : IsSTO b.compare_right)
    {x : storage_node L R} (hx : x ∈ inorder b.left_set) :
    ∃ u w u2 w2,
      inorder b.left_set = u ++ x :: w ∧
      inorder (erase_left_it b x).1.left_set = u ++ w ∧
      inorder b.right_set = u2 ++ x :: w2 ∧
      inorder (erase_left_it b x).1.right_set = u2 ++ w2 ∧
      (erase_left_it b x).1.m_size = b.m_size - 1 ∧
      (erase_left_it b x).1.compare_left = b.compare_left ∧
      (erase_left_it b x).1.compare_right = b.compare_right ∧
      (erase_left_it b x).2 = ⟨w.head?⟩ := by
  have hxr : x ∈ inorder b.right_set := hinv.recs_perm.mem_iff.mp hx
  cases hq : path_of x b.right_set with
  | none => exact absurd hxr ((path_of_none_iff b.right_set).mp hq)
  | some q =>
      cases hp : path_of x b.left_set with
      | none => exact absurd hx ((path_of_none_iff b.left_set).mp hp)
      | some p =>
          obtain ⟨a1, b1, hsubR⟩ := path_of_subtreeAt b.right_set q hq
          obtain ⟨a2, b2, hsubL⟩ := path_of_subtreeAt b.left_set p hp
          obtain ⟨u, w, hsplitL, hnewL⟩ :=
            erase_at_split b.left_set p a2 x b2 hsubL
          obtain ⟨u2, w2, hsplitR, hnewR⟩ :=
            erase_at_split b.right_set q a1 x b1 hsubR
          have hred : erase_left_it b x =
              ({ b with
                  right_set := erase_at b.right_set q,
                  left_set := erase_at b.left_set p,
                  m_size := b.m_size - 1 },
                ⟨(incPath b.left_set p).bind (valueAt b.left_set)⟩) := by
            unfold erase_left_it
            rw [hq, hp]
          refine ⟨u, w, u2, w2, hsplitL, ?_, hsplitR, ?_, ?_, ?_, ?_, ?_⟩
          · rw [hred]; exact hnewL
          · rw [hred]; exact hnewR
          · rw [hred]
          · rw [hred]
          · rw [hred]
          · rw [hred, incPath_bind_of_split (nodup_inorder hL hinv.bstL)
              hsubL hsplitL]

theorem erase_right_it_spec {b : bimap L R} (hinv : Inv b)
    (hL : IsSTO b.compare_left) (hR : IsSTO b.compare_right)
    {x : storage_node L R} (hx : x ∈ inorder b.right_set) :
    ∃ u w u2 w2,
      inorder b.right_set = u ++ x :: w ∧
      inorder (erase_right_it b x).1.right_set = u ++ w ∧
      inorder b.left_set = u2 ++ x :: w2 ∧
      inorder (erase_right_it b x).1.left_set = u2 ++ w2 ∧
      (erase_right_it b x).1.m_size = b.m_size - 1 ∧
      (erase_right_it b x).1.compare_left = b.compare_left ∧
      (erase_right_it b x).1.compare_right = b.compare_right ∧
      (erase_right_it b x).2 = ⟨w.head?⟩ := by
  have hxl : x ∈ inorder b.left_set := hinv.recs_perm.mem_iff.mpr hx
  cases hq : path_of x b.left_set with
  | none => exact absurd hxl ((path_of_none_iff b.left_set).mp hq)
  | some q =>
      cases hp : path_of x b.right_set with
      | none => exact absurd hx ((path_of_none_iff b.right_set).mp hp)
      | some p =>
          obtain ⟨a1, b1, hsubL⟩ := path_of_subtreeAt b.left_set q hq
          obtain ⟨a2, b2, hsubR⟩ := path_of_subtreeAt b.right_set p hp
          obtain ⟨u, w, hsplitR, hnewR⟩ :=
            erase_at_split b.right_set p a2 x b2 hsubR
          obtain ⟨u2, w2, hsplitL, hnewL⟩ :=
            erase_at_split b.left_set q a1 x b1 hsubL
          have hred : erase_right_it b x =
              ({ b with
                  left_set := erase_at b.left_set q,
                  right_set := erase_at b.right_set p,
                  m_size := b.m_size - 1 },
                ⟨(incPath b.right_set p).bind (valueAt b.right_set)⟩) := by
            unfold erase_right_it
            rw [hq, hp]
          refine ⟨u, w, u2, w2, hsplitR, ?_, hsplitL, ?_, ?_, ?_, ?_, ?_⟩
          · rw [hred]; exact hnewR
          · rw [hred]; exact hnewL
          · rw [hred]
          · rw [hred]
          · rw [hred]
          · rw [hred, incPath_bind_of_split (nodup_inorder hR hinv.bstR)
              hsubR hsplitR]

theorem inv_erase_left_it {b : bimap L R} (hinv : Inv b)
    (hL : IsSTO b.compare_left) (hR : IsSTO b.compare_right)
    (x : storage_node L R) : Inv (erase_left_it b x).1 := by
  by_cases hx : x ∈ inorder b.left_set
  · obtain ⟨u, w, u2, w2, hsplitL, hnewL, hsplitR, hnewR, hsz, hcl, hcr, _⟩ :=
      erase_left_it_spec hinv hL hR hx
    refine ⟨?_, ?_, ?_, ?_⟩
    · refine isBST_of_pairwise ?_
      rw [hnewL]
      have hp := pairwise_of_isBST hL hinv.bstL
      rw [hsplitL] at hp
      rw [hcl]
      exact hp.sublist (((List.Sublist.refl w).cons x).append_left u)
    · refine isBST_of_pairwise ?_
      rw [hnewR]
      have hp := pairwise_of_isBST hR hinv.bstR
      rw [hsplitR] at hp
      rw [hcr]
      exact hp.sublist (((List.Sublist.refl w2).cons x).append_left u2)
    · rw [hsz, hnewL, hinv.size_eq, hsplitL]
      simp only [List.length_append, List.length_cons]
      omega
    · rw [hnewL, hnewR]
      have hperm := hinv.recs_perm
      rw [hsplitL, hsplitR] at hperm
      have h1 : List.Perm (x :: (u ++ w)) (x :: (u2 ++ w2)) :=
        (List.perm_middle.symm.trans hperm).trans List.perm_middle
      exact h1.cons_inv
  · unfold erase_left_it
    rw [(path_of_none_iff b.left_set).mpr hx]
    cases hq : path_of x b.right_set <;> exact hinv

theorem inv_erase_right_it {b : bimap L R} (hinv : Inv b)
    (hL : IsSTO b.compare_left) (hR : IsSTO b.compare_right)
    (x : storage_node L R) : Inv (erase_right_it b x).1 := by
  by_cases hx : x ∈ inorder b.right_set
  · obtain ⟨u, w, u2, w2, hsplitR, hnewR, hsplitL, hnewL, hsz, hcl, hcr, _⟩ :=
      erase_right_it_spec hinv hL hR hx
    refine ⟨?_, ?_, ?_, ?_⟩
    · refine isBST_of_pairwise ?_
      rw [hnewL]
      have hp := pairwise_of_isBST hL hinv.bstL
      rw [hsplitL] at hp
      rw [hcl]
      exact hp.sublist (((List.Sublist.refl w2).cons x).append_left u2)
    · refine isBST_of_pairwise ?_
      rw [hnewR]
      have hp := pairwise_of_isBST hR hinv.bstR
      rw [hsplitR] at hp
      rw [hcr]
      exact hp.sublist (((List.Sublist.refl w).cons x).append_left u)
    · rw [hsz, hnewL, hinv.size_eq, hsplitL]
      simp only [List.length_append, List.length_cons]
      omega
    · rw [hnewL, hnewR]
      have hperm := hinv.recs_perm
      rw [hsplitL, hsplitR] at hperm
      have h1 : List.Perm (x :: (u2 ++ w2)) (x :: (u ++ w)) :=
        (List.perm_middle.symm.trans hperm).trans List.perm_middle
      exact h1.cons_inv
  · unfold erase_right_it
    rw [(path_of_none_iff b.right_set).mpr hx]
    cases hq : path_of x b.left_set <;> exact hinv

theorem insert_compare_eq (b : bimap L R) (l : L) (r : R) :
    (insert b l r).1.compare_left = b.compare_left ∧
      (insert b l r).1.compare_right = b.compare_right := by
  unfold insert
  by_cases hc : (!((find_left b l).isNone && (find_right b r).isNone)) = true
  · rw [if_pos hc]; exact ⟨rfl, rfl⟩
  · rw [if_neg hc]; exact ⟨rfl, rfl⟩

theorem erase_left_it_compare_eq (b : bimap L R) (x : storage_node L R) :
    (erase_left_it b x).1.compare_left = b.compare_left ∧
      (erase_left_it b x).1.compare_right = b.compare_right := by
  unfold erase_left_it
  cases path_of x b.right_set <;> cases path_of x b.left_set <;>
    exact ⟨rfl, rfl⟩

theorem erase_right_it_compare_eq (b : bimap L R) (x : storage_node L R) :
    (erase_right_it b x).1.compare_left = b.compare_left ∧
      (erase_right_it b x).1.compare_right = b.compare_right := by
  unfold erase_right_it
  cases path_of x b.left_set <;> cases path_of x b.right_set <;>
    exact ⟨rfl, rfl⟩

theorem reachable_inv {b : bimap L R} (h : Reachable b) :
    Inv b ∧ IsSTO b.compare_left ∧ IsSTO b.compare_right := by
  induction h with
  | init cl cr hcl hcr => exact ⟨inv_mk_bimap cl cr, hcl, hcr⟩
  | ins b l r _ ih =>
      obtain ⟨hinv, hL, hR⟩ := ih
      obtain ⟨h1, h2⟩ := insert_compare_eq b l r
      exact ⟨inv_insert hinv hL hR l r, h1 ▸ hL, h2 ▸ hR⟩
  | erl b x _ ih =>
      obtain ⟨hinv, hL, hR⟩ := ih
      obtain ⟨h1, h2⟩ := erase_left_it_compare_eq b x
      exact ⟨inv_erase_left_it hinv hL hR x, h1 ▸ hL, h2 ▸ hR⟩
  | err b x _ ih =>
      obtain ⟨hinv, hL, hR⟩ := ih
      obtain ⟨h1, h2⟩ := erase_right_it_compare_eq b x
      exact ⟨inv_erase_right_it hinv hL hR x, h1 ▸ hL, h2 ▸ hR⟩

theorem equals_comm {K : Type} (cmp : K → K → Bool) (a b : K) :
    equals cmp a b = equals cmp b a := by
  unfold equals
  rw [Bool.or_comm]

theorem bool_eq_of_iff {a b : Bool} (h : a = true ↔ b = true) : a = b := by
  cases a <;> cases b <;> simp_all

theorem beq_loop_eq_true_iff (cl : L → L → Bool) (cr : R → R → Bool) :
    ∀ xs ys : List (storage_node L R), xs.length = ys.length →
      (beq_loop cl cr xs ys = true ↔
        List.Forall₂ (fun x y =>
          equals cl (getter_left x) (getter_left y) = true ∧
          equals cr (getter_right x) (getter_right y) = true) xs ys) := by
  intro xs
  induction xs with
  | nil =>
      intro ys h
      cases ys with
      | nil => exact iff_of_true rfl List.Forall₂.nil
      | cons y ys => simp at h
  | cons x xs ih =>
      intro ys h
      cases ys with
      | nil => simp at h
      | cons y ys =>
          rw [beq_loop]
          by_cases hc : (cl x.left_key y.left_key || cl y.left_key x.left_key
              || cr x.right_key y.right_key || cr y.right_key x.right_key)
              = true
          · rw [if_pos hc]
            refine iff_of_false (by simp) ?_
            intro hf
            rw [List.forall₂_cons] at hf
            obtain ⟨⟨he1, he2⟩, _⟩ := hf
            unfold equals at he1 he2
            simp only [Bool.not_eq_true', Bool.or_eq_false_iff,
              getter_left, getter_right] at he1 he2
            rw [he1.1, he1.2, he2.1, he2.2] at hc
            simp at hc
          · rw [if_neg hc]
            simp only [Bool.or_eq_true, not_or, Bool.not_eq_true] at hc
            obtain ⟨⟨⟨h1, h2⟩, h3⟩, h4⟩ := hc
            rw [List.forall₂_cons]
            have hhead : equals cl (getter_left x) (getter_left y) = true ∧
                equals cr (getter_right x) (getter_right y) = true := by
              unfold equals getter_left getter_right
              rw [h1, h2, h3, h4]
              simp
            rw [ih ys (by simpa using h)]
            exact ⟨fun ht => ⟨hhead, ht⟩, fun ht => ht.2⟩

theorem beq_eq_true_iff {a b : bimap L R} (ha : Inv a) (hb : Inv b) :
    beq a b = true ↔
      (a.m_size = b.m_size ∧
        List.Forall₂ (fun x y =>
          equals a.compare_left (getter_left x) (getter_left y) = true ∧
          equals a.compare_right (getter_right x) (getter_right y) = true)
          (inorder a.left_set) (inorder b.left_set)) := by
  unfold beq
  by_cases hs : a.m_size = b.m_size
  · have hlen : (inorder a.left_set).length = (inorder b.left_set).length := by
      rw [← ha.size_eq, ← hb.size_eq, hs]
    rw [if_neg (by simp [hs]), beq_loop_eq_true_iff _ _ _ _ hlen]
    exact ⟨fun h => ⟨hs, h⟩, fun h => h.2⟩
  · rw [if_pos (by simpa using hs)]
    refine iff_of_false (by simp) ?_
    intro h
    exact hs h.1

theorem beq_refl {a : bimap L R} (ha : Inv a) (hL : IsSTO a.compare_left)
    (hR : IsSTO a.compare_right) : beq a a = true := by
  rw [beq_eq_true_iff ha ha]
  refine ⟨rfl, ?_⟩
  rw [List.forall₂_same]
  intro x _
  constructor
  · unfold equals
    rw [hL.irrefl]
    simp
  · unfold equals
    rw [hR.irrefl]
    simp

theorem beq_symm {a b : bimap L R} (ha : Inv a) (hb : Inv b)
    (hcl : a.compare_left = b.compare_left)
    (hcr : a.compare_right = b.compare_right) :
    beq a b = beq b a := by
  apply bool_eq_of_iff
  rw [beq_eq_true_iff ha hb, beq_eq_true_iff hb ha]
  constructor
  · rintro ⟨hs, hf⟩
    refine ⟨hs.symm, ?_⟩
    refine hf.flip.imp ?_
    intro y x hxy
    obtain ⟨h1, h2⟩ := hxy
    rw [equals_comm, hcl] at h1
    rw [equals_comm, hcr] at h2
    exact ⟨h1, h2⟩
  · rintro ⟨hs, hf⟩
    refine ⟨hs.symm, ?_⟩
    refine hf.flip.imp ?_
    intro y x hxy
    obtain ⟨h1, h2⟩ := hxy
    rw [equals_comm, ← hcl] at h1
    rw [equals_comm, ← hcr] at h2
    exact ⟨h1, h2⟩

theorem foldl_insert_spec {cl : L → L → Bool} {cr : R → R → Bool}
    (hcl : IsSTO cl) (hcr : IsSTO cr) :
    ∀ (ps : List (L × R)) (b : bimap L R), Inv b →
      b.compare_left = cl → b.compare_right = cr →
      ((inorder b.left_set).map getter_left ++ ps.map Prod.fst).Nodup →
      ((inorder b.left_set).map getter_right ++ ps.map Prod.snd).Nodup →
      Inv (ps.foldl (fun b p => (insert b p.1 p.2).1) b) ∧
      (ps.foldl (fun b p => (insert b p.1 p.2).1) b).compare_left = cl ∧
      (ps.foldl (fun b p => (insert b p.1 p.2).1) b).compare_right = cr ∧
      List.Perm
        (inorder (ps.foldl (fun b p => (insert b p.1 p.2).1) b).left_set)
        (inorder b.left_set ++
          ps.map (fun p => (⟨p.1, p.2⟩ : storage_node L R))) := by
  intro ps
  induction ps with
  | nil =>
      intro b hinv h1 h2 _ _
      exact ⟨hinv, h1, h2, by simp⟩
  | cons p ps ih =>
      intro b hinv h1 h2 hndl hndr
      have hL : IsSTO b.compare_left := h1 ▸ hcl
      have hR : IsSTO b.compare_right := h2 ▸ hcr
      have hfl : find_left b p.1 = none := by
        rw [find_left_none_iff hL hinv.bstL]
        intro x hx hEq
        have hp1 : p.1 ∈ (ps.map Prod.fst) ++ [] ∨ True := Or.inr trivial
        have : ¬ getter_left x ∈ (p.1 :: ps.map Prod.fst) := by
          have hd := List.disjoint_of_nodup_append hndl
          intro hmem
          exact hd (List.mem_map_of_mem getter_left hx) (by simpa using hmem)
        exact this (by rw [hEq]; exact List.mem_cons_self _ _)
      have hfr : find_right b p.2 = none := by
        rw [find_right_none_iff hR hinv.bstR]
        intro x hx hEq
        have hxl : x ∈ inorder b.left_set := hinv.recs_perm.mem_iff.mpr hx
        have : ¬ getter_right x ∈ (p.2 :: ps.map Prod.snd) := by
          have hd := List.disjoint_of_nodup_append hndr
          intro hmem
          exact hd (List.mem_map_of_mem getter_right hxl) (by simpa using hmem)
        exact this (by rw [hEq]; exact List.mem_cons_self _ _)
      have hstep := insert_of_absent hfl hfr
      have hinv1 : Inv (insert b p.1 p.2).1 := inv_insert hinv hL hR p.1 p.2
      have hperm1 : List.Perm (inorder (insert b p.1 p.2).1.left_set)
          ((⟨p.1, p.2⟩ : storage_node L R) :: inorder b.left_set) := by
        rw [hstep]
        exact inorder_add_to_tree_perm getter_left b.compare_left _ _
      have hc1 : (insert b p.1 p.2).1.compare_left = cl := by
        rw [hstep]; exact h1
      have hc2 : (insert b p.1 p.2).1.compare_right = cr := by
        rw [hstep]; exact h2
      have hmapl : List.Perm
          ((inorder (insert b p.1 p.2).1.left_set).map getter_left)
          (p.1 :: (inorder b.left_set).map getter_left) := by
        simpa [getter_left] using hperm1.map getter_left
      have hmapr : List.Perm
          ((inorder (insert b p.1 p.2).1.left_set).map getter_right)
          (p.2 :: (inorder b.left_set).map getter_right) := by
        simpa [getter_right] using hperm1.map getter_right
      have hndl1 : ((inorder (insert b p.1 p.2).1.left_set).map getter_left ++
          ps.map Prod.fst).Nodup := by
        refine List.Perm.nodup ?_ hndl
        rw [List.map_cons]
        exact List.perm_middle.trans (hmapl.append_right _).symm
      have hndr1 : ((inorder (insert b p.1 p.2).1.left_set).map getter_right ++
          ps.map Prod.snd).Nodup := by
        refine List.Perm.nodup ?_ hndr
        rw [List.map_cons]
        exact List.perm_middle.trans (hmapr.append_right _).symm
      obtain ⟨hinvN, hclN, hcrN, hpermN⟩ :=
        ih (insert b p.1 p.2).1 hinv1 hc1 hc2 hndl1 hndr1
      rw [List.foldl_cons]
      refine ⟨hinvN, hclN, hcrN, ?_⟩
      refine hpermN.trans ?_
      refine (hperm1.append_right _).trans ?_
      rw [List.map_cons]
      exact List.perm_middle.symm

theorem from_inserts_beq {cl : L → L → Bool} {cr : R → R → Bool}
    (hcl : IsSTO cl) (hcr : IsSTO cr) {ps ps' : List (L × R)}
    (hperm : List.Perm ps ps')
    (hndl : (ps.map Prod.fst).Nodup) (hndr : (ps.map Prod.snd).Nodup) :
    beq (from_inserts cl cr ps) (from_inserts cl cr ps') = true := by
  have hndl' : (ps'.map Prod.fst).Nodup := ((hperm.map Prod.fst).nodup hndl)
  have hndr' : (ps'.map Prod.snd).Nodup := ((hperm.map Prod.snd).nodup hndr)
  obtain ⟨hinv1, hc1l, hc1r, hp1⟩ :=
    foldl_insert_spec hcl hcr ps (mk_bimap cl cr) (inv_mk_bimap cl cr)
      rfl rfl (by simpa using hndl) (by simpa using hndr)
  obtain ⟨hinv2, hc2l, hc2r, hp2⟩ :=
    foldl_insert_spec hcl hcr ps' (mk_bimap cl cr) (inv_mk_bimap cl cr)
      rfl rfl (by simpa using hndl') (by simpa using hndr')
  have hinv1' : Inv (from_inserts cl cr ps) := hinv1
  have hinv2' : Inv (from_inserts cl cr ps') := hinv2
  have hc1l' : (from_inserts cl cr ps).compare_left = cl := hc1l
  have hc1r' : (from_inserts cl cr ps).compare_right = cr := hc1r
  have hc2l' : (from_inserts cl cr ps').compare_left = cl := hc2l
  have hpp : List.Perm (inorder (from_inserts cl cr ps).left_set)
      (inorder (from_inserts cl cr ps').left_set) := by
    refine hp1.trans (List.Perm.trans ?_ hp2.symm)
    simpa using hperm.map fun p => (⟨p.1, p.2⟩ : storage_node L R)
  haveI : IsAntisymm (storage_node L R)
      (fun a b => cl (getter_left a) (getter_left b) = true) := by
    refine ⟨fun a b h1 h2 => ?_⟩
    have := hcl.asymm _ _ h1
    rw [h2] at this
    exact Bool.noConfusion this
  have s1 : (inorder (from_inserts cl cr ps).left_set).Pairwise
      (fun a b => cl (getter_left a) (getter_left b) = true) := by
    have hs := pairwise_of_isBST
      (show IsSTO (from_inserts cl cr ps).compare_left by
        rw [hc1l']; exact hcl) hinv1'.bstL
    rwa [hc1l'] at hs
  have s2 : (inorder (from_inserts cl cr ps').left_set).Pairwise
      (fun a b => cl (getter_left a) (getter_left b) = true) := by
    have hs := pairwise_of_isBST
      (show IsSTO (from_inserts cl cr ps').compare_left by
        rw [hc2l']; exact hcl) hinv2'.bstL
    rwa [hc2l'] at hs
  have hrecs : inorder (from_inserts cl cr ps).left_set =
      inorder (from_inserts cl cr ps').left_set :=
    List.eq_of_perm_of_sorted hpp s1 s2
  rw [beq_eq_true_iff hinv1' hinv2']
  refine ⟨?_, ?_⟩
  · rw [hinv1'.size_eq, hinv2'.size_eq, hrecs]
  · rw [hrecs, List.forall₂_same]
    intro x _
    constructor
    · unfold equals
      rw [hc1l', hcl.irrefl]
      simp
    · unfold equals
      rw [hc1r', hcr.irrefl]
      simp

end Bimap

namespace Intrusive

theorem keys_ne_of_split {T K : Type} {getk : T → K} {cmp : K → K → Bool}
    (hsto : IsSTO cmp) {u w : List T} {x : T}
    (hp : (u ++ x :: w).Pairwise (fun a b => cmp (getk a) (getk b) = true)) :
    ∀ y ∈ u ++ w, getk y ≠ getk x := by
  rw [List.pairwise_append] at hp
  obtain ⟨hu, hxw, hcross⟩ := hp
  rw [List.pairwise_cons] at hxw
  intro y hy heq
  rcases List.mem_append.mp hy with hm | hm
  · have hlt := hcross y hm x (List.mem_cons_self x w)
    rw [heq] at hlt
    rw [hsto.irrefl (getk x)] at hlt
    exact Bool.noConfusion hlt
  · have hlt := hxw.1 y hm
    rw [heq] at hlt
    rw [hsto.irrefl (getk x)] at hlt
    exact Bool.noConfusion hlt

theorem natBltSTO : IsSTO (fun a b : Nat => Nat.blt a b) := by
  refine ⟨?_, ?_, ?_⟩
  · intro a b h
    simp only [Nat.blt_eq] at h
    simp only [Bool.eq_false_iff, ne_eq, Nat.blt_eq]
    omega
  · intro a b c h1 h2
    simp only [Nat.blt_eq] at h1 h2
    simp only [Nat.blt_eq]
    omega
  · intro a b h1 h2
    simp only [Bool.eq_false_iff, ne_eq, Nat.blt_eq] at h1 h2
    omega

end Intrusive

namespace Bimap

open Intrusive

variable {L R : Type} [DecidableEq L] [DecidableEq R]

/-- Claim C3: for every live pair in the container and every cursor
addressing it in one tree, `flip` yields the cursor in the other tree that
addresses the identical record — dereferencing the flip of a left cursor
yields the pair's right key and vice versa — and `flip` is an involution:
`flip (flip c) = c`.  The model's `flip` only re-tags the carried record and
takes no tree argument, reflecting that the source implements it by a layout
reinterpretation of the shared record rather than by a search. -/
theorem claim_C3 (b : bimap L R) (x : storage_node L R)
    (hx : x ∈ inorder b.left_set) (c : left_iterator L R)
    (hc : c = ⟨some x⟩) (d : right_iterator L R) (hd : d = ⟨some x⟩) :
    c.flip.deref = some x.right_key ∧ c.flip.flip = c ∧
    d.flip.deref = some x.left_key ∧ d.flip.flip = d := by
  subst hc
  subst hd
  exact ⟨rfl, rfl, rfl, rfl⟩

theorem claim_C3_witness :
    ((⟨1, 2⟩ : storage_node Nat Nat) ∈ inorder
        (insert (mk_bimap (fun a b : Nat => Nat.blt a b)
          (fun a b : Nat => Nat.blt a b)) 1 2).1.left_set) ∧
    (left_iterator.flip ⟨some ⟨1, 2⟩⟩ : right_iterator Nat Nat).deref
      = some 2 :=
  ⟨by decide,
    (claim_C3 (insert (mk_bimap (fun a b : Nat => Nat.blt a b)
        (fun a b : Nat => Nat.blt a b)) 1 2).1
      ⟨1, 2⟩ (by decide) ⟨some ⟨1, 2⟩⟩ rfl ⟨some ⟨1, 2⟩⟩ rfl).1⟩

/-- Claim C4: the specification says move construction and move assignment
transfer tree ownership by exchanging the trees' sentinel contents and the
size counter, leaving the moved-from container empty.  The code's transfer
path is `intrusive_set`'s move constructor, whose initializer list leaves
the destination's sentinel pointer value-initialized to null and whose body
immediately dereferences it; the modelled constructor therefore fails
(returns `none`) on every input — here evaluated on a set holding the single
record (1, 2) — and no transfer ever happens.  (The `bimap` class itself
declares no move operations, so moving a `bimap` invokes its copy
constructor and the moved-from container stays unchanged.) -/
theorem claim_C4 :
    move_construct (⟨Intrusive.Tree.node Intrusive.Tree.nil
      (⟨1, 2⟩ : storage_node Nat Nat) Intrusive.Tree.nil⟩ :
        set_state (storage_node Nat Nat)) = none := rfl

/-- Claim C10: structural equality `operator==` evaluates key equivalence
using only the first container's stored comparison objects — replacing the
second container's comparison objects never changes the result — and
consequently, when the two containers hold comparison objects with differing
behaviour, `a == b` and `b == a` can disagree, witnessed by two singleton
containers over `Nat`. -/
theorem claim_C10 :
    (∀ (a b : bimap Nat Nat) (cl : Nat → Nat → Bool)
        (cr : Nat → Nat → Bool),
      beq a b = beq a { b with compare_left := cl, compare_right := cr }) ∧
    (∃ a b : bimap Nat Nat, beq a b = false ∧ beq b a = true) := by
  refine ⟨fun a b cl cr => rfl, ?_⟩
  refine ⟨(insert (mk_bimap (fun a b : Nat => Nat.blt a b)
      (fun a b : Nat => Nat.blt a b)) 0 0).1,
    (insert (mk_bimap (fun _ _ : Nat => false)
      (fun _ _ : Nat => false)) 1 1).1, ?_, ?_⟩
  · decide
  · decide

/-- Claim C1: for every bimap state (with comparators satisfying the
comparator contract and the representation invariant) and every key pair,
`insert` returns the end cursor of the left tree and leaves both trees and
the size unmodified when the left key is already present in the left tree or
the right key is already present in the right tree; otherwise it creates one
record holding both keys, links it into both trees, increments the size by
one, and returns a cursor addressing that record in the left tree. -/
theorem claim_C1 (b : bimap L R) (hinv : Inv b)
    (hL : IsSTO b.compare_left) (hR : IsSTO b.compare_right) (l : L) (r : R) :
    ((l ∈ (inorder b.left_set).map getter_left ∨
        r ∈ (inorder b.right_set).map getter_right) →
      insert b l r = (b, ⟨none⟩)) ∧
    (¬(l ∈ (inorder b.left_set).map getter_left ∨
        r ∈ (inorder b.right_set).map getter_right) →
      (insert b l r).2 = ⟨some ⟨l, r⟩⟩ ∧
      (⟨l, r⟩ : storage_node L R) ∈ inorder (insert b l r).1.left_set ∧
      List.Perm (inorder (insert b l r).1.left_set)
        ((⟨l, r⟩ : storage_node L R) :: inorder b.left_set) ∧
      List.Perm (inorder (insert b l r).1.right_set)
        ((⟨l, r⟩ : storage_node L R) :: inorder b.right_set) ∧
      (insert b l r).1.m_size = b.m_size + 1) := by
  constructor
  · intro hpres
    rcases hpres with hm | hm
    · obtain ⟨x, hx, hkey⟩ := List.mem_map.mp hm
      have hf := find_left_complete hL hinv.bstL hx
      rw [hkey] at hf
      exact insert_of_left_present hf
    · obtain ⟨x, hx, hkey⟩ := List.mem_map.mp hm
      have hf := find_right_complete hR hinv.bstR hx
      rw [hkey] at hf
      exact insert_of_right_present hf
  · intro habs
    rw [not_or] at habs
    obtain ⟨habl, habr⟩ := habs
    have hfl : find_left b l = none := by
      rw [find_left_none_iff hL hinv.bstL]
      intro x hx hEq
      exact habl (List.mem_map.mpr ⟨x, hx, hEq⟩)
    have hfr : find_right b r = none := by
      rw [find_right_none_iff hR hinv.bstR]
      intro x hx hEq
      exact habr (List.mem_map.mpr ⟨x, hx, hEq⟩)
    rw [insert_of_absent hfl hfr]
    have hpl := inorder_add_to_tree_perm getter_left b.compare_left
      (⟨l, r⟩ : storage_node L R) b.left_set
    have hpr := inorder_add_to_tree_perm getter_right b.compare_right
      (⟨l, r⟩ : storage_node L R) b.right_set
    exact ⟨rfl, hpl.mem_iff.mpr (List.mem_cons_self _ _), hpl, hpr, rfl⟩

theorem claim_C1_witness :
    (insert (mk_bimap (fun a b : Nat => Nat.blt a b)
      (fun a b : Nat => Nat.blt a b)) 1 2).2 = ⟨some ⟨1, 2⟩⟩ :=
  ((claim_C1 (mk_bimap (fun a b : Nat => Nat.blt a b)
      (fun a b : Nat => Nat.blt a b))
    (inv_mk_bimap _ _) natBltSTO natBltSTO 1 2).2 (by decide)).1

/-- Claim C6: `at_left` (and symmetrically `at_right`) signals the
key-not-found failure (modelled by `none`, standing for the thrown
`std::out_of_range`) exactly when the key is absent from its side, and
otherwise returns the opposite-side value of the pair holding the key;
`at_left` takes the container by value and returns only the looked-up value,
so the container is never mutated.  `find_left`/`find_right` never raise:
they signal absence through the end-of-tree cursor (`none`). -/
theorem claim_C6 (b : bimap L R) (hinv : Inv b)
    (hL : IsSTO b.compare_left) (hR : IsSTO b.compare_right)
    (k : L) (k2 : R) :
    (at_left b k = none ↔ ∀ x ∈ inorder b.left_set, getter_left x ≠ k) ∧
    (∀ x ∈ inorder b.left_set, getter_left x = k →
      at_left b k = some x.right_key) ∧
    (find_left b k = none ↔ ∀ x ∈ inorder b.left_set, getter_left x ≠ k) ∧
    (at_right b k2 = none ↔
      ∀ x ∈ inorder b.right_set, getter_right x ≠ k2) ∧
    (∀ x ∈ inorder b.right_set, getter_right x = k2 →
      at_right b k2 = some x.left_key) ∧
    (find_right b k2 = none ↔
      ∀ x ∈ inorder b.right_set, getter_right x ≠ k2) := by
  refine ⟨?_, ?_, find_left_none_iff hL hinv.bstL k, ?_, ?_,
    find_right_none_iff hR hinv.bstR k2⟩
  · unfold at_left
    rw [Option.map_eq_none']
    exact find_left_none_iff hL hinv.bstL k
  · intro x hx hkey
    unfold at_left
    have hf := find_left_complete hL hinv.bstL hx
    rw [hkey] at hf
    rw [hf]
    rfl
  · unfold at_right
    rw [Option.map_eq_none']
    exact find_right_none_iff hR hinv.bstR k2
  · intro x hx hkey
    unfold at_right
    have hf := find_right_complete hR hinv.bstR hx
    rw [hkey] at hf
    rw [hf]
    rfl

theorem claim_C6_witness :
    at_left (insert (mk_bimap (fun a b : Nat => Nat.blt a b)
      (fun a b : Nat => Nat.blt a b)) 1 2).1 3 = none :=
  (claim_C6 (insert (mk_bimap (fun a b : Nat => Nat.blt a b)
      (fun a b : Nat => Nat.blt a b)) 1 2).1
    ⟨by decide, by decide, by decide, by decide⟩
    natBltSTO natBltSTO 3 4).1.mpr (by decide)

/-- Claim C9: for every tree state satisfying the search-tree invariant and
every key, the lower bound is the first record in key order whose key is not
less than the key, and the upper bound is the first record whose key is
strictly greater, the end cursor (`none`) when no such record exists; stated
for the container's delegating `lower_bound_left`/`upper_bound_left` and
`lower_bound_right`/`upper_bound_right`, whose in-order record sequences
realize the key order. -/
theorem claim_C9 (b : bimap L R) (hinv : Inv b)
    (hL : IsSTO b.compare_left) (hR : IsSTO b.compare_right)
    (k : L) (k2 : R) :
    lower_bound_left b k =
      (inorder b.left_set).find? (fun x => !b.compare_left (getter_left x) k)
    ∧ upper_bound_left b k =
      (inorder b.left_set).find? (fun x => b.compare_left k (getter_left x))
    ∧ lower_bound_right b k2 =
      (inorder b.right_set).find?
        (fun x => !b.compare_right (getter_right x) k2)
    ∧ upper_bound_right b k2 =
      (inorder b.right_set).find?
        (fun x => b.compare_right k2 (getter_right x)) := by
  refine ⟨?_, ?_, ?_, ?_⟩
  · exact lower_bound_bind hL hinv.bstL k
  · exact upper_bound_bind hL hinv.bstL k
  · exact lower_bound_bind hR hinv.bstR k2
  · exact upper_bound_bind hR hinv.bstR k2

theorem claim_C9_witness :
    lower_bound_left (insert (mk_bimap (fun a b : Nat => Nat.blt a b)
      (fun a b : Nat => Nat.blt a b)) 5 7).1 3 = some ⟨5, 7⟩ :=
  (claim_C9 (insert (mk_bimap (fun a b : Nat => Nat.blt a b)
      (fun a b : Nat => Nat.blt a b)) 5 7).1
    ⟨by decide, by decide, by decide, by decide⟩
    natBltSTO natBltSTO 3 4).1.trans (by decide)

/-- Claim C8: for every reachable bimap state, walking the left tree from
`begin` by repeated cursor increment (with the container's size as the step
count) visits exactly the in-order record sequence, whose left keys are
strictly increasing under the left comparison; symmetrically for the right
tree and the right comparison. -/
theorem claim_C8 (b : bimap L R) (hre : Reachable b) :
    iter_from b.left_set (Intrusive.begin b.left_set) b.m_size =
      inorder b.left_set ∧
    ((inorder b.left_set).map getter_left).Pairwise
      (fun k1 k2 => b.compare_left k1 k2 = true) ∧
    iter_from b.right_set (Intrusive.begin b.right_set) b.m_size =
      inorder b.right_set ∧
    ((inorder b.right_set).map getter_right).Pairwise
      (fun k1 k2 => b.compare_right k1 k2 = true) := by
  obtain ⟨hinv, hL, hR⟩ := reachable_inv hre
  have hlenR : b.m_size = (inorder b.right_set).length := by
    rw [hinv.size_eq, hinv.recs_perm.length_eq]
  refine ⟨?_, ?_, ?_, ?_⟩
  · rw [hinv.size_eq]
    exact iter_from_begin b.left_set
  · rw [List.pairwise_map]
    exact pairwise_of_isBST hL hinv.bstL
  · rw [hlenR]
    exact iter_from_begin b.right_set
  · rw [List.pairwise_map]
    exact pairwise_of_isBST hR hinv.bstR

theorem claim_C8_witness :
    iter_from (insert (insert (mk_bimap (fun a b : Nat => Nat.blt a b)
        (fun a b : Nat => Nat.blt a b)) 2 20).1 1 10).1.left_set
      (Intrusive.begin (insert (insert (mk_bimap
        (fun a b : Nat => Nat.blt a b)
        (fun a b : Nat => Nat.blt a b)) 2 20).1 1 10).1.left_set)
      (insert (insert (mk_bimap (fun a b : Nat => Nat.blt a b)
        (fun a b : Nat => Nat.blt a b)) 2 20).1 1 10).1.m_size =
    inorder (insert (insert (mk_bimap (fun a b : Nat => Nat.blt a b)
        (fun a b : Nat => Nat.blt a b)) 2 20).1 1 10).1.left_set :=
  (claim_C8 (insert (insert (mk_bimap (fun a b : Nat => Nat.blt a b)
      (fun a b : Nat => Nat.blt a b)) 2 20).1 1 10).1
    (Reachable.ins _ 1 10 (Reachable.ins _ 2 20
      (Reachable.init _ _ natBltSTO natBltSTO)))).1

/-- Claim C2: for every bimap (satisfying the representation invariant, with
contract-satisfying comparators) and every valid non-end left cursor —
a cursor carrying a record stored in the left tree — `erase_left` removes
the referenced pair from both trees (afterwards `find_right` for the pair's
right key and `find_left` for its left key return the end cursor),
decrements the size by exactly one, and returns the cursor to the in-order
successor of the erased position in the left tree; symmetrically for
`erase_right`. -/
theorem claim_C2 (b : bimap L R) (hinv : Inv b)
    (hL : IsSTO b.compare_left) (hR : IsSTO b.compare_right)
    (x : storage_node L R) :
    (x ∈ inorder b.left_set →
      (erase_left_it b x).1.m_size = b.m_size - 1 ∧ 0 < b.m_size ∧
      find_right (erase_left_it b x).1 (getter_right x) = none ∧
      find_left (erase_left_it b x).1 (getter_left x) = none ∧
      (∀ i, (inorder b.left_set).get? i = some x →
        (erase_left_it b x).2 = ⟨(inorder b.left_set).get? (i + 1)⟩)) ∧
    (x ∈ inorder b.right_set →
      (erase_right_it b x).1.m_size = b.m_size - 1 ∧ 0 < b.m_size ∧
      find_left (erase_right_it b x).1 (getter_left x) = none ∧
      find_right (erase_right_it b x).1 (getter_right x) = none ∧
      (∀ i, (inorder b.right_set).get? i = some x →
        (erase_right_it b x).2 = ⟨(inorder b.right_set).get? (i + 1)⟩)) := by
  constructor
  · intro hx
    obtain ⟨u, w, u2, w2, hsplitL, hnewL, hsplitR, hnewR, hsz, hcl, hcr,
      hit⟩ := erase_left_it_spec hinv hL hR hx
    have hinvN : Inv (erase_left_it b x).1 := inv_erase_left_it hinv hL hR x
    have hLN : IsSTO (erase_left_it b x).1.compare_left := by
      rw [hcl]; exact hL
    have hRN : IsSTO (erase_left_it b x).1.compare_right := by
      rw [hcr]; exact hR
    refine ⟨hsz, ?_, ?_, ?_, ?_⟩
    · rw [hinv.size_eq, hsplitL]
      simp
    · rw [find_right_none_iff hRN hinvN.bstR]
      intro y hy
      rw [hnewR] at hy
      have hpR := pairwise_of_isBST hR hinv.bstR
      rw [hsplitR] at hpR
      exact keys_ne_of_split hR hpR y hy
    · rw [find_left_none_iff hLN hinvN.bstL]
      intro y hy
      rw [hnewL] at hy
      have hpL := pairwise_of_isBST hL hinv.bstL
      rw [hsplitL] at hpL
      exact keys_ne_of_split hL hpL y hy
    · intro i hi
      have hnd := nodup_inorder hL hinv.bstL
      have hul : (inorder b.left_set).get? u.length = some x := by
        rw [hsplitL, List.get?_append_right (le_refl _), Nat.sub_self,
          List.get?_cons_zero]
      have hie : i = u.length := by
        have hilt : i < (inorder b.left_set).length :=
          (List.get?_eq_some.mp hi).1
        exact List.get?_inj hilt hnd (hi.trans hul.symm)
      rw [hit, hie, hsplitL, List.get?_append_right (by omega),
        show u.length + 1 - u.length = 1 by omega, List.get?_cons_succ]
      cases w <;> rfl
  · intro hx
    obtain ⟨u, w, u2, w2, hsplitR, hnewR, hsplitL, hnewL, hsz, hcl, hcr,
      hit⟩ := erase_right_it_spec hinv hL hR hx
    have hinvN : Inv (erase_right_it b x).1 :=
      inv_erase_right_it hinv hL hR x
    have hLN : IsSTO (erase_right_it b x).1.compare_left := by
      rw [hcl]; exact hL
    have hRN : IsSTO (erase_right_it b x).1.compare_right := by
      rw [hcr]; exact hR
    refine ⟨hsz, ?_, ?_, ?_, ?_⟩
    · rw [hinv.size_eq, hinv.recs_perm.length_eq, hsplitR]
      simp
    · rw [find_left_none_iff hLN hinvN.bstL]
      intro y hy
      rw [hnewL] at hy
      have hpL := pairwise_of_isBST hL hinv.bstL
      rw [hsplitL] at hpL
      exact keys_ne_of_split hL hpL y hy
    · rw [find_right_none_iff hRN hinvN.bstR]
      intro y hy
      rw [hnewR] at hy
      have hpR := pairwise_of_isBST hR hinv.bstR
      rw [hsplitR] at hpR
      exact keys_ne_of_split hR hpR y hy
    · intro i hi
      have hnd := nodup_inorder hR hinv.bstR
      have hul : (inorder b.right_set).get? u.length = some x := by
        rw [hsplitR, List.get?_append_right (le_refl _), Nat.sub_self,
          List.get?_cons_zero]
      have hie : i = u.length := by
        have hilt : i < (inorder b.right_set).length :=
          (List.get?_eq_some.mp hi).1
        exact List.get?_inj hilt hnd (hi.trans hul.symm)
      rw [hit, hie, hsplitR, List.get?_append_right (by omega),
        show u.length + 1 - u.length = 1 by omega, List.get?_cons_succ]
      cases w <;> rfl

theorem claim_C2_witness :
    find_right (erase_left_it (insert (mk_bimap
      (fun a b : Nat => Nat.blt a b) (fun a b : Nat => Nat.blt a b))
      1 10).1 ⟨1, 10⟩).1 10 = none :=
  ((claim_C2 (insert (mk_bimap (fun a b : Nat => Nat.blt a b)
      (fun a b : Nat => Nat.blt a b)) 1 10).1
    ⟨by decide, by decide, by decide, by decide⟩
    natBltSTO natBltSTO ⟨1, 10⟩).1 (by decide)).2.2.1

/-- Claim C7: two bimaps are structurally equal iff they have the same size
and, walking both left trees in left-key order in lock-step, every
corresponding pair has equivalent left keys under the (first container's)
left comparison and equivalent right keys under the right comparison, where
equivalence (`equals`) means neither key is less than the other; this
equality is reflexive, symmetric for containers holding the same comparison
objects, insensitive to the order in which the pairs were inserted, and
`operator!=` is its negation. -/
theorem claim_C7 (a b : bimap L R) (ha : Inv a) (hb : Inv b)
    (hL : IsSTO a.compare_left) (hR : IsSTO a.compare_right) :
    (beq a b = true ↔
      (a.m_size = b.m_size ∧
        List.Forall₂ (fun x y =>
          equals a.compare_left (getter_left x) (getter_left y) = true ∧
          equals a.compare_right (getter_right x) (getter_right y) = true)
          (inorder a.left_set) (inorder b.left_set))) ∧
    beq a a = true ∧
    (a.compare_left = b.compare_left → a.compare_right = b.compare_right →
      beq a b = beq b a) ∧
    bne a b = !beq a b ∧
    (∀ ps ps' : List (L × R), List.Perm ps ps' →
      (ps.map Prod.fst).Nodup → (ps.map Prod.snd).Nodup →
      beq (from_inserts a.compare_left a.compare_right ps)
        (from_inserts a.compare_left a.compare_right ps') = true) :=
  ⟨beq_eq_true_iff ha hb, beq_refl ha hL hR, beq_symm ha hb, rfl,
    fun _ _ hperm h1 h2 => from_inserts_beq hL hR hperm h1 h2⟩

theorem claim_C7_witness :
    beq (insert (mk_bimap (fun a b : Nat => Nat.blt a b)
      (fun a b : Nat => Nat.blt a b)) 1 2).1
      (insert (mk_bimap (fun a b : Nat => Nat.blt a b)
      (fun a b : Nat => Nat.blt a b)) 1 2).1 = true :=
  (claim_C7 (insert (mk_bimap (fun a b : Nat => Nat.blt a b)
      (fun a b : Nat => Nat.blt a b)) 1 2).1
    (insert (mk_bimap (fun a b : Nat => Nat.blt a b)
      (fun a b : Nat => Nat.blt a b)) 1 2).1
    ⟨by decide, by decide, by decide, by decide⟩
    ⟨by decide, by decide, by decide, by decide⟩
    natBltSTO natBltSTO).2.1

/-- Claim C5: `at_left_or_default` (and symmetrically `at_right_or_default`)
returns the paired right value without mutation when the key already exists
on the left; otherwise it constructs the default right value, erases the
pairing holding that default value if one exists, inserts the pair of the
key and the default, and returns the stored default — so afterwards the left
key previously paired with the default value is absent from the container. -/
theorem claim_C5 [Inhabited L] [Inhabited R] (b : bimap L R) (hinv : Inv b)
    (hL : IsSTO b.compare_left) (hR : IsSTO b.compare_right)
    (k : L) (k2 : R) :
    (∀ x ∈ inorder b.left_set, getter_left x = k →
      at_left_or_default b k = (b, x.right_key)) ∧
    ((∀ x ∈ inorder b.left_set, getter_left x ≠ k) →
      (at_left_or_default b k).2 = (default : R) ∧
      (⟨k, default⟩ : storage_node L R) ∈
        inorder (at_left_or_default b k).1.left_set ∧
      (∀ y ∈ inorder b.right_set, getter_right y = (default : R) →
        ∀ z ∈ inorder (at_left_or_default b k).1.left_set,
          getter_left z ≠ getter_left y)) ∧
    (∀ x ∈ inorder b.right_set, getter_right x = k2 →
      at_right_or_default b k2 = (b, x.left_key)) ∧
    ((∀ x ∈ inorder b.right_set, getter_right x ≠ k2) →
      (at_right_or_default b k2).2 = (default : L) ∧
      (⟨default, k2⟩ : storage_node L R) ∈
        inorder (at_right_or_default b k2).1.right_set ∧
      (∀ y ∈ inorder b.left_set, getter_left y = (default : L) →
        ∀ z ∈ inorder (at_right_or_default b k2).1.right_set,
          getter_right z ≠ getter_right y)) := by
  refine ⟨?_, ?_, ?_, ?_⟩
  · intro x hx hkey
    have hf := find_left_complete hL hinv.bstL hx
    rw [hkey] at hf
    unfold at_left_or_default
    rw [hf]
  · intro habs
    have hfl : find_left b k = none := by
      rw [find_left_none_iff hL hinv.bstL]; exact habs
    cases hfr : find_right b (default : R) with
    | none =>
        have hins := insert_of_absent hfl hfr
        have hred : at_left_or_default b k =
            ((insert b k (default : R)).1, (default : R)) := by
          unfold at_left_or_default
          simp only [hfl, hfr, hins]
        rw [hred]
        refine ⟨rfl, ?_, ?_⟩
        · rw [hins]
          exact (inorder_add_to_tree_perm getter_left b.compare_left
            _ _).mem_iff.mpr (List.mem_cons_self _ _)
        · intro y hy hyd
          exact absurd hyd
            ((find_right_none_iff hR hinv.bstR (default : R)).mp hfr y hy)
    | some y =>
        obtain ⟨hyd, hymem⟩ := find_right_some_spec hR hinv.bstR hfr
        obtain ⟨u, w, u2, w2, hsplitR, hnewR, hsplitL, hnewL, hsz, hcl,
          hcr, _⟩ := erase_right_it_spec hinv hL hR hymem
        have hinv1 : Inv (erase_right_it b y).1 :=
          inv_erase_right_it hinv hL hR y
        have hL1 : IsSTO (erase_right_it b y).1.compare_left := by
          rw [hcl]; exact hL
        have hR1 : IsSTO (erase_right_it b y).1.compare_right := by
          rw [hcr]; exact hR
        have hsubmemL : ∀ z ∈ inorder (erase_right_it b y).1.left_set,
            z ∈ inorder b.left_set := by
          intro z hz
          rw [hnewL] at hz
          rw [hsplitL]
          rcases List.mem_append.mp hz with hm | hm
          · exact List.mem_append.mpr (Or.inl hm)
          · exact List.mem_append.mpr
              (Or.inr (List.mem_cons.mpr (Or.inr hm)))
        have hfl1 : find_left (erase_right_it b y).1 k = none := by
          rw [find_left_none_iff hL1 hinv1.bstL]
          intro z hz
          exact habs z (hsubmemL z hz)
        have hfr1 : find_right (erase_right_it b y).1 (default : R)
            = none := by
          rw [find_right_none_iff hR1 hinv1.bstR]
          intro z hz
          rw [hnewR] at hz
          have hpR := pairwise_of_isBST hR hinv.bstR
          rw [hsplitR] at hpR
          have hne := keys_ne_of_split hR hpR z hz
          rw [hyd] at hne
          exact hne
        have hins := insert_of_absent hfl1 hfr1
        have hred : at_left_or_default b k =
            ((insert (erase_right_it b y).1 k (default : R)).1,
              (default : R)) := by
          unfold at_left_or_default
          simp only [hfl, hfr, hins]
        have hpermIns : List.Perm
            (inorder (insert (erase_right_it b y).1 k
              (default : R)).1.left_set)
            ((⟨k, default⟩ : storage_node L R) ::
              inorder (erase_right_it b y).1.left_set) := by
          rw [hins]
          exact inorder_add_to_tree_perm getter_left _ _ _
        rw [hred]
        refine ⟨rfl, ?_, ?_⟩
        · exact hpermIns.mem_iff.mpr (List.mem_cons_self _ _)
        · intro y' hy' hy'd
          have hy'y : y' = y :=
            eq_of_mem_key_eq hR hinv.bstR hy' hymem (by rw [hy'd, hyd])
          intro z hz
          rcases List.mem_cons.mp (hpermIns.mem_iff.mp hz) with rfl | hz2
          · exact fun hEq =>
              habs y' (hinv.recs_perm.mem_iff.mpr hy') hEq.symm
          · rw [hy'y]
            rw [hnewL] at hz2
            have hpL := pairwise_of_isBST hL hinv.bstL
            rw [hsplitL] at hpL
            exact keys_ne_of_split hL hpL z hz2
  · intro x hx hkey
    have hf := find_right_complete hR hinv.bstR hx
    rw [hkey] at hf
    unfold at_right_or_default
    rw [hf]
  · intro habs
    have hfr : find_right b k2 = none := by
      rw [find_right_none_iff hR hinv.bstR]; exact habs
    cases hfl : find_left b (default : L) with
    | none =>
        have hins := insert_of_absent hfl hfr
        have hred : at_right_or_default b k2 =
            ((insert b (default : L) k2).1, (default : L)) := by
          unfold at_right_or_default
          simp only [hfr, hfl, hins]
        rw [hred]
        refine ⟨rfl, ?_, ?_⟩
        · rw [hins]
          exact (inorder_add_to_tree_perm getter_right b.compare_right
            _ _).mem_iff.mpr (List.mem_cons_self _ _)
        · intro y hy hyd
          exact absurd hyd
            ((find_left_none_iff hL hinv.bstL (default : L)).mp hfl y hy)
    | some y =>
        obtain ⟨hyd, hymem⟩ := find_left_some_spec hL hinv.bstL hfl
        obtain ⟨u, w, u2, w2, hsplitL, hnewL, hsplitR, hnewR, hsz, hcl,
          hcr, _⟩ := erase_left_it_spec hinv hL hR hymem
        have hinv1 : Inv (erase_left_it b y).1 :=
          inv_erase_left_it hinv hL hR y
        have hL1 : IsSTO (erase_left_it b y).1.compare_left := by
          rw [hcl]; exact hL
        have hR1 : IsSTO (erase_left_it b y).1.compare_right := by
          rw [hcr]; exact hR
        have hsubmemR : ∀ z ∈ inorder (erase_left_it b y).1.right_set,
            z ∈ inorder b.right_set := by
          intro z hz
          rw [hnewR] at hz
          rw [hsplitR]
          rcases List.mem_append.mp hz with hm | hm
          · exact List.mem_append.mpr (Or.inl hm)
          · exact List.mem_append.mpr
              (Or.inr (List.mem_cons.mpr (Or.inr hm)))
        have hfr1 : find_right (erase_left_it b y).1 k2 = none := by
          rw [find_right_none_iff hR1 hinv1.bstR]
          intro z hz
          exact habs z (hsubmemR z hz)
        have hfl1 : find_left (erase_left_it b y).1 (default : L)
            = none := by
          rw [find_left_none_iff hL1 hinv1.bstL]
          intro z hz
          rw [hnewL] at hz
          have hpL := pairwise_of_isBST hL hinv.bstL
          rw [hsplitL] at hpL
          have hne := keys_ne_of_split hL hpL z hz
          rw [hyd] at hne
          exact hne
        have hins := insert_of_absent hfl1 hfr1
        have hred : at_right_or_default b k2 =
            ((insert (erase_left_it b y).1 (default : L) k2).1,
              (default : L)) := by
          unfold at_right_or_default
          simp only [hfr, hfl, hins]
        have hpermIns : List.Perm
            (inorder (insert (erase_left_it b y).1 (default : L)
              k2).1.right_set)
            ((⟨default, k2⟩ : storage_node L R) ::
              inorder (erase_left_it b y).1.right_set) := by
          rw [hins]
          exact inorder_add_to_tree_perm getter_right _ _ _
        rw [hred]
        refine ⟨rfl, ?_, ?_⟩
        · exact hpermIns.mem_iff.mpr (List.mem_cons_self _ _)
        · intro y' hy' hy'd
          have hy'y : y' = y :=
            eq_of_mem_key_eq hL hinv.bstL hy' hymem (by rw [hy'd, hyd])
          intro z hz
          rcases List.mem_cons.mp (hpermIns.mem_iff.mp hz) with rfl | hz2
          · exact fun hEq =>
              habs y' (hinv.recs_perm.mem_iff.mp hy') hEq.symm
          · rw [hy'y]
            rw [hnewR] at hz2
            have hpR := pairwise_of_isBST hR hinv.bstR
            rw [hsplitR] at hpR
            exact keys_ne_of_split hR hpR z hz2

theorem claim_C5_witness :
    (at_left_or_default (insert (mk_bimap (fun a b : Nat => Nat.blt a b)
      (fun a b : Nat => Nat.blt a b)) 3 0).1 5).2 = 0 :=
  ((claim_C5 (insert (mk_bimap (fun a b : Nat => Nat.blt a b)
      (fun a b : Nat => Nat.blt a b)) 3 0).1
    ⟨by decide, by decide, by decide, by decide⟩
    natBltSTO natBltSTO 5 7).2.1 (by decide)).1

end Bimap
